import Mathlib

/-!
# Verification of the worker-async RPC message handler

This file is a shallow embedding, in Lean 4, of the protocol core of the
worker-async library (`src/messageHandler.ts`), together with theorems about
the embedded definitions.

Modelling conventions:
* JavaScript primitive values (undefined, null, booleans, numbers, strings)
  are `Prim`; numbers are modelled as integers (no arithmetic is performed on
  them anywhere in the protocol core, they are only moved around and compared).
* Tree-shaped JavaScript values (`SVal`) model the acyclic values that travel
  in messages and error objects; the general object *graph* (with cycles and
  sharing) is modelled separately as a heap (`SrcHeap`) of objects addressed
  by index, used for `clone` and `hydrateRemote`.
* `async` control flow is modelled by explicit state passing: each handler is
  a pure function from the handler state (and the message, plus an oracle for
  the result of awaiting a host invocation or an iterator step) to the new
  state and the list of effects it performs, in order.  Effects are the calls
  to `postMessage`, registrations in the request table, completions of pending
  promises, and invocations of iterator return hooks.
* Recursive traversals of object graphs (`clone`, `hydrateRemote`) are given
  explicit fuel; theorems below prove that fuel `heap.length` always suffices,
  which is the termination content of the corresponding claims.
-/

namespace WorkerAsync

/-- A unique identifier to denote remote functions (`messageHandler.ts` line 49).
The source uses a string because `Symbol`s cannot be structured-cloned. -/
def FunctionSymbol : String := "֍Ꝕ"

/-- `MessageType.Reject` of the source's `const enum MessageType` (line 1-8):
`Initiate = 0, Request = 1, Resolve = 2, Reject = 3, RequestNextItem = 4,
CancelIterator = 5`.  `Reject = 3` is also used as the marker kind on
serialized errors (line 279). -/
def MessageTypeReject : Int := 3

/-- JavaScript primitive values, as far as the protocol core observes them. -/
inductive Prim where
  | undef
  | null
  | bool (b : Bool)
  | num (n : Int)
  | str (s : String)
deriving DecidableEq, Repr

/-- Tree-shaped JavaScript values: primitives, function values, and plain
objects given as association lists of named fields.  Used for message
payloads and the error codec, where values are acyclic. -/
inductive SVal where
  | prim (p : Prim)
  | func
  | obj (fields : List (String × SVal))
deriving Repr

mutual

def SVal.beq : SVal → SVal → Bool
  | .prim p, .prim q => p == q
  | .func, .func => true
  | .obj fs, .obj gs => SVal.beqFields fs gs
  | _, _ => false

def SVal.beqFields : List (String × SVal) → List (String × SVal) → Bool
  | [], [] => true
  | (k, v) :: r, (k', v') :: r' => k == k' && SVal.beq v v' && SVal.beqFields r r'
  | _, _ => false

end

mutual

/-- Correctness of `SVal.beq`, feeding the `DecidableEq` instance. -/
def SVal.beq_iff : ∀ (a b : SVal), SVal.beq a b = true ↔ a = b
  | .prim p, .prim q => by simp [SVal.beq]
  | .prim _, .func => by simp [SVal.beq]
  | .prim _, .obj _ => by simp [SVal.beq]
  | .func, .prim _ => by simp [SVal.beq]
  | .func, .func => by simp [SVal.beq]
  | .func, .obj _ => by simp [SVal.beq]
  | .obj _, .prim _ => by simp [SVal.beq]
  | .obj _, .func => by simp [SVal.beq]
  | .obj fs, .obj gs => by
      simp only [SVal.beq, SVal.obj.injEq]
      exact SVal.beqFields_iff fs gs

def SVal.beqFields_iff : ∀ (a b : List (String × SVal)), SVal.beqFields a b = true ↔ a = b
  | [], [] => by simp [SVal.beqFields]
  | [], _ :: _ => by simp [SVal.beqFields]
  | _ :: _, [] => by simp [SVal.beqFields]
  | (k, v) :: r, (k', v') :: r' => by
      simp only [SVal.beqFields, Bool.and_eq_true, beq_iff_eq, List.cons.injEq, Prod.mk.injEq]
      rw [and_assoc, SVal.beq_iff v v', SVal.beqFields_iff r r', and_assoc]

end

instance : DecidableEq SVal := fun a b => decidable_of_iff _ (SVal.beq_iff a b)

/-- The test `value === FunctionSymbol` of the source, on tree values: a value
is the function sentinel exactly when it is that exact string. -/
def isFunctionSymbol : SVal → Bool
  | .prim (.str s) => s == FunctionSymbol
  | _ => false

/-- JavaScript property assignment `o[k] = v` on an association-list object:
an existing key keeps its position and gets the new value; a new key is
appended at the end. -/
def setField (fs : List (String × SVal)) (k : String) (v : SVal) : List (String × SVal) :=
  if (List.lookup k fs).isSome then
    fs.map fun kv => if kv.1 = k then (kv.1, v) else kv
  else
    fs ++ [(k, v)]

/-- Reading a property expected to be a string, with a default for a missing
or non-string property (used to model reading `message`/`stack`/`name` off a
freshly `Object.assign`ed `new Error()`). -/
def getStrD (fs : List (String × SVal)) (k : String) (dflt : String) : String :=
  match List.lookup k fs with
  | some (.prim (.str s)) => s
  | _ => dflt

/-- Keys that the error codec writes explicitly. -/
def keyType : String := "_type"

def keyMessage : String := "message"

def keyStack : String := "stack"

def keyName : String := "name"

def defaultErrorName : String := "Error"

/-- An `Error` instance, as observed by the codec: the native `message` and
`stack` slots (own, non-enumerable in V8, hence not part of `fields`), the
`name` visible through the prototype chain, and the enumerable own fields
(custom fields such as `code`).  `fields` may shadow `message`/`stack`/`name`
when the user created such enumerable own properties; well-formedness
hypotheses in the theorems tie those to the slots where needed. -/
structure ErrVal where
  message : String
  stack : String
  name : String
  fields : List (String × SVal)
deriving DecidableEq, Repr

/-- A JavaScript value that may or may not be an `Error` instance
(`err instanceof Error` distinguishes the two in the source). -/
inductive JSVal where
  | plain (v : SVal)
  | errV (e : ErrVal)
deriving DecidableEq, Repr

mutual

/-- `clone` (`messageHandler.ts` lines 292-346) restricted to tree-shaped
(acyclic, unshared) values, where the `clonedObjs` memoisation map never
fires; the full graph version with the memoisation map is `cloneVal` below.
Primitives pass through; functions become the `FunctionSymbol` sentinel;
objects are cloned field by field, a field whose cloned value is the sentinel
being dropped when `withFunctions` is false (lines 315-320). -/
def cloneS (withFunctions : Bool) : SVal → SVal
  | .prim p => .prim p
  | .func => .prim (.str FunctionSymbol)
  | .obj fs => .obj (cloneSFields withFunctions fs)

def cloneSFields (withFunctions : Bool) : List (String × SVal) → List (String × SVal)
  | [] => []
  | (k, v) :: rest =>
    let c := cloneS withFunctions v
    if withFunctions || !(isFunctionSymbol c) then
      (k, c) :: cloneSFields withFunctions rest
    else
      cloneSFields withFunctions rest

end

/-- `serializeError` (`messageHandler.ts` lines 271-290).  For an `Error`:
`clone(err, false)` clones the enumerable own fields dropping function-valued
ones, and the prototype walk (lines 322-336) contributes the error's `name`
when no own enumerable `name` field exists (`message` and `stack` read off the
prototype there are immediately overwritten below, so they are not modelled);
then the marker `_type = MessageType.Reject` and the native `message` and
`stack` are assigned explicitly.  A non-`Error` is returned as-is (line 288). -/
def serializeError : JSVal → SVal
  | .errV e =>
    let cloned := cloneSFields false e.fields
    let cloned :=
      if (List.lookup keyName cloned).isSome then cloned
      else cloned ++ [(keyName, .prim (.str e.name))]
    .obj (setField (setField (setField cloned keyType (.prim (.num MessageTypeReject)))
      keyMessage (.prim (.str e.message))) keyStack (.prim (.str e.stack)))
  | .plain v => v

/-- The receiving-side test `err?._type === MessageType.Reject`
(`messageHandler.ts` line 349). -/
def isRejectTagged : SVal → Bool
  | .obj fs => List.lookup keyType fs == some (.prim (.num MessageTypeReject))
  | _ => false

/-- `deserializeError` (`messageHandler.ts` lines 348-357): a value tagged
with the reject marker is poured into a fresh `new Error()` via
`Object.assign`, so the result's `message`/`stack`/`name` are the tagged
object's fields (defaulting to the fresh error's own: empty message, empty
(modelled) stack, prototype name `"Error"`) and it carries every field of the
tagged object; anything else is returned unchanged. -/
def deserializeError (v : SVal) : JSVal :=
  if isRejectTagged v then
    match v with
    | .obj fs =>
        .errV { message := getStrD fs keyMessage ""
                stack := getStrD fs keyStack ""
                name := getStrD fs keyName defaultErrorName
                fields := fs }
    | _ => .plain v
  else
    .plain v

/-- The `message` exposed by a received failure value (for an error-like
value, its `message`; a plain value exposes none). -/
def errMessage : JSVal → Option String
  | .errV e => some e.message
  | .plain _ => none

def errStack : JSVal → Option String
  | .errV e => some e.stack
  | .plain _ => none

/-- Property read `e[k]` on a received failure value's carried fields. -/
def errFieldLookup (j : JSVal) (k : String) : Option SVal :=
  match j with
  | .errV e => List.lookup k e.fields
  | .plain (.obj fs) => List.lookup k fs
  | .plain _ => none

/-! ## Wire protocol, handler state and the dispatcher

The `Message` union of `messageHandler.ts` lines 10-46, the `MessageHandler`
state of lines 56-62, and the handlers, as pure state-and-effects functions. -/

/-- The closed message kind set (`messageHandler.ts` lines 1-46).  Payload
values are tree values (`SVal`); `resolve` carries an optional result
(`result?: any`). -/
inductive Msg where
  | initiate (reqId : Nat) (remote : SVal)
  | request (reqId : Nat) (children : List String) (method : String) (args : List SVal)
  | resolve (reqId : Nat) (result : Option SVal)
  | reject (reqId : Nat) (error : SVal)
  | requestNextItem (reqId : Nat)
  | cancelIterator (reqId : Nat)
deriving DecidableEq, Repr

/-- A producer-side `AsyncIterator` handle as stored in `asyncIterators`.
Only the presence of the optional `return` hook matters to the handlers
(`iter.return?.()` on line 192); the outcome of each `iter.next()` call is an
oracle parameter of `handleRequestNextItem`. -/
structure IterHandle where
  hasReturn : Bool
deriving DecidableEq, Repr

/-- The mutable state of a `MessageHandler` (`messageHandler.ts` lines 57-59):
the request correlation table (modelled by the list of pending reqIds; the
completion handles themselves are surfaced as `Effect`s), the active stream
registry, and the reqId counter. -/
structure MHState where
  requests : List Nat
  asyncIterators : List (Nat × IterHandle)
  lastReqId : Nat
deriving DecidableEq, Repr

/-- The observable actions a handler performs, in program order:
`post m` is a call to `this.postMessage(m)` (the Channel's send);
`registerReq id` is `this.requests.set(id, …)`;
`resolveReq`/`rejectReq` are calls to a pending entry's `resolve`/`reject`
(the payload of `rejectReq` is already deserialized, line 162);
`invokeReturn id` is the stream early-termination call `iter.return?.()`
firing for the stream keyed by `id`. -/
inductive Effect where
  | post (m : Msg)
  | registerReq (reqId : Nat)
  | resolveReq (reqId : Nat) (result : Option SVal)
  | rejectReq (reqId : Nat) (error : JSVal)
  | invokeReturn (reqId : Nat)
deriving DecidableEq, Repr

/-- `Map.delete` on the request table: after it, the key is absent. -/
def eraseReq (rs : List Nat) (reqId : Nat) : List Nat :=
  rs.filter fun i => i != reqId

/-- `Map.delete` on the active-stream registry. -/
def eraseIter (l : List (Nat × IterHandle)) (reqId : Nat) : List (Nat × IterHandle) :=
  l.filter fun p => p.1 != reqId

/-- `newReqId` (`messageHandler.ts` lines 246-248): `return this.lastReqId++`. -/
def newReqId (st : MHState) : Nat × MHState :=
  (st.lastReqId, { st with lastReqId := st.lastReqId + 1 })

/-- The `reqId` carried by a message. -/
def Msg.reqId : Msg → Nat
  | .initiate id _ => id
  | .request id _ _ _ => id
  | .resolve id _ => id
  | .reject id _ => id
  | .requestNextItem id => id
  | .cancelIterator id => id

/-- `sendRequest` (`messageHandler.ts` lines 250-258).  The source first
posts the message to the other side ("first try to post message to the
other side") and only then — synchronously, inside the `new Promise`
executor — adds the pending entry to the requests map ("if post succeeds,
add to requests map").  The effect list records that order. -/
def sendRequest (st : MHState) (msg : Msg) : MHState × List Effect :=
  ({ st with requests := msg.reqId :: st.requests },
   [.post msg, .registerReq msg.reqId])

/-- The message-sending half of `sendInitiate` (`messageHandler.ts` line
95-98): allocate a reqId and send `Initiate` carrying `clone(this.host)`
through `sendRequest`. -/
def sendInitiateSend (host : SVal) (st : MHState) : MHState × List Effect :=
  let (reqId, st1) := newReqId st
  sendRequest st1 (.initiate reqId (cloneS true host))

/-- The message-sending half of `remoteMethod` (`messageHandler.ts` lines
213-215): allocate a reqId and send `Request{reqId, children, method, args}`
through `sendRequest`. -/
def remoteMethodSend (children : List String) (method : String) (args : List SVal)
    (st : MHState) : MHState × List Effect :=
  let (reqId, st1) := newReqId st
  sendRequest st1 (.request reqId children method args)

/-- The stream consumer's `next` step (`messageHandler.ts` line 228): send
`RequestNextItem` with the stream's reqId through `sendRequest`. -/
def requestNextItemSend (reqId : Nat) (st : MHState) : MHState × List Effect :=
  sendRequest st (.requestNextItem reqId)

/-- What the peer's reply to the Initiate did to the local pending entry:
`handleResponse` either resolved it or rejected it with the peer's error. -/
inductive InitiateAnswer where
  | resolved
  | rejected (error : SVal)
deriving DecidableEq, Repr

/-- The continuation of `sendInitiate` after `await this.sendRequest(…)`
(`messageHandler.ts` lines 95-106).  If the peer rejected, the awaited
promise throws the error `handleResponse` rejected it with (already
deserialized, line 162).  Otherwise, if the local `handleInitiate` recorded
an `initiateError` while constructing the remote, that error is thrown
(lines 101-102); else the stored `this.remote` is returned (line 104). -/
def sendInitiateResult (answer : InitiateAnswer) (initiateError : Option JSVal)
    (remote : SVal) : Except JSVal SVal :=
  match answer with
  | .rejected e => .error (deserializeError e)
  | .resolved =>
    match initiateError with
    | some err => .error err
    | none => .ok remote

/-- The awaited outcome of the host invocation in `handleRequest`
(`messageHandler.ts` lines 132-136): the path walk
`children.reduce((obj, key) => obj[key], this.host)` followed by
`await obj[method](...args)` either produces a plain value, produces a value
exposing `Symbol.asyncIterator` (whose iterator is `iter`), or throws. -/
inductive InvocationResult where
  | plain (v : SVal)
  | asyncIterable (iter : IterHandle)
deriving DecidableEq, Repr

/-- `handleRequest` (`messageHandler.ts` lines 129-152), given the awaited
invocation outcome: a plain result is resolved with its value; an async
iterable registers an active stream under the reqId and resolves with no
value; a thrown error is serialized and rejected. -/
def handleRequest (st : MHState) (reqId : Nat) (invocation : Except JSVal InvocationResult) :
    MHState × List Effect :=
  match invocation with
  | .ok (.asyncIterable iter) =>
      ({ st with asyncIterators := (reqId, iter) :: st.asyncIterators },
       [.post (.resolve reqId none)])
  | .ok (.plain v) => (st, [.post (.resolve reqId (some v))])
  | .error e => (st, [.post (.reject reqId (serializeError e))])

/-- A Resolve or Reject message, as dispatched to `handleResponse`. -/
inductive Response where
  | resolve (result : Option SVal)
  | reject (error : SVal)
deriving DecidableEq, Repr

/-- `handleResponse` (`messageHandler.ts` lines 155-165): look up the pending
entry; if absent do nothing; if present, delete it and complete it —
resolving with the result, or rejecting with the deserialized error. -/
def handleResponse (st : MHState) (reqId : Nat) (r : Response) : MHState × List Effect :=
  if st.requests.contains reqId then
    ({ st with requests := eraseReq st.requests reqId },
     match r with
     | .resolve v => [.resolveReq reqId v]
     | .reject e => [.rejectReq reqId (deserializeError e)])
  else
    (st, [])

/-- The awaited outcome of `iter.next()` in `handleRequestNextItem`:
either an iterator step `{done, value}` or a thrown error. -/
inductive NextOutcome where
  | ok (done : Bool) (value : SVal)
  | threw (e : JSVal)
deriving DecidableEq, Repr

/-- The `Error` constructed on line 172 of `messageHandler.ts` when no active
stream exists for a `RequestNextItem`; the construction-time stack is
environment-dependent and modelled as the empty string. -/
def noIterError (reqId : Nat) : ErrVal :=
  { message := "No async iterators found for request " ++ toString reqId
    stack := ""
    name := defaultErrorName
    fields := [] }

def keyIterValue : String := "value"

def keyIterDone : String := "done"

/-- The `{done, value}` iterator-step object posted inside a Resolve. -/
def iterStepVal (done : Bool) (value : SVal) : SVal :=
  .obj [(keyIterValue, value), (keyIterDone, .prim (.bool done))]

/-- `handleRequestNextItem` (`messageHandler.ts` lines 167-186).  If no
active stream is registered for the reqId, the handler throws
`Error("No async iterators found for request …")`, which its own catch block
serializes and posts as a Reject, and marks the step done (the subsequent
`delete` is a no-op).  Otherwise the awaited `iter.next()` outcome is posted
as a Resolve carrying the step object, or — if `next` threw — serialized and
posted as a Reject; on a done step or an error the registry entry is
deleted. -/
def handleRequestNextItem (st : MHState) (reqId : Nat) (next : NextOutcome) :
    MHState × List Effect :=
  match List.lookup reqId st.asyncIterators with
  | none =>
      ({ st with asyncIterators := eraseIter st.asyncIterators reqId },
       [.post (.reject reqId (serializeError (.errV (noIterError reqId))))])
  | some _ =>
      match next with
      | .ok done value =>
          ({ st with asyncIterators :=
               if done then eraseIter st.asyncIterators reqId else st.asyncIterators },
           [.post (.resolve reqId (some (iterStepVal done value)))])
      | .threw e =>
          ({ st with asyncIterators := eraseIter st.asyncIterators reqId },
           [.post (.reject reqId (serializeError e))])

/-- `handleCancelIterator` (`messageHandler.ts` lines 188-194): if an active
stream is registered for the reqId, delete the entry and invoke the
iterator's early-termination hook `iter.return?.()` (which fires only when
the iterator defines `return`); otherwise do nothing. -/
def handleCancelIterator (st : MHState) (reqId : Nat) : MHState × List Effect :=
  match List.lookup reqId st.asyncIterators with
  | some iter =>
      ({ st with asyncIterators := eraseIter st.asyncIterators reqId },
       if iter.hasReturn then [.invokeReturn reqId] else [])
  | none => (st, [])

/-! ## Object graphs: `clone` and `hydrateRemote`

Arbitrary JavaScript object graphs — including cycles and sharing — are
modelled as a heap: a list of objects addressed by index, each object an
association list of fields whose values are primitives, function values,
references to other heap objects, or (after hydration) remote-method stubs.
The recursive source functions are embedded with an explicit fuel argument;
the theorems below show that fuel `heap.length` suffices on every
well-formed heap, which is exactly the termination argument the source
relies on (the memoisation map / seen set can only grow). -/

/-- A field value in an object graph. `stub children method` is the closure
`(...args) => this.remoteMethod(children, method, args)` that `hydrateRemote`
writes over a sentinel field (line 205); for `clone`, a stub is just a
function value. -/
inductive HVal where
  | prim (p : Prim)
  | func
  | ref (i : Nat)
  | stub (children : List String) (method : String)
deriving DecidableEq, Repr

abbrev ObjFields := List (String × HVal)

abbrev SrcHeap := List ObjFields

/-- The sentinel value `FunctionSymbol` as a graph field value. -/
def funcMarkerH : HVal := .prim (.str FunctionSymbol)

/-- The test `value === FunctionSymbol` on graph field values. -/
def isFunctionSymbolH : HVal → Bool
  | .prim (.str s) => s == FunctionSymbol
  | _ => false

/-- The state threaded through `clone`: `map` is the `clonedObjs` memoisation
map (source object id ↦ clone's id in `out`, newest entry first), `out` is
the heap of clone objects built so far (an entry is allocated — empty — when
its source is first reached, and filled in when its fields are done, matching
`result = {}; clonedObjs.set(obj, result); … result[key] = value`). -/
structure CloneSt where
  map : List (Nat × Nat)
  out : SrcHeap
deriving DecidableEq, Repr

mutual

/-- `clone` (`messageHandler.ts` lines 292-346) on graph values, with fuel.
Primitives pass through (lines 294-298, including `null`); `undefined` and
other defaults pass through as `undefined` (line 343-344); functions become
the `FunctionSymbol` sentinel (lines 340-342).  For an object reference: if
the object was already cloned, return the existing clone (lines 305-308) —
this is the circular-reference guard; otherwise allocate a fresh clone
object, memoise it *before* cloning the fields (lines 311-312), clone the
fields, and store them.  Heap objects model plain objects (prototype
`Object.prototype`), so the prototype walk of lines 322-336 contributes
nothing and is not represented. -/
def cloneVal (heap : SrcHeap) (withFunctions : Bool) :
    Nat → CloneSt → HVal → Option (CloneSt × HVal)
  | _, st, .prim p => some (st, .prim p)
  | _, st, .func => some (st, .prim (.str FunctionSymbol))
  | _, st, .stub _ _ => some (st, .prim (.str FunctionSymbol))
  | fuel, st, .ref j =>
    match List.lookup j st.map with
    | some r => some (st, .ref r)
    | none =>
      match fuel, heap.get? j with
      | 0, _ => none
      | _ + 1, none => none
      | fuel' + 1, some fields =>
        let r := st.out.length
        match cloneFields heap withFunctions fuel' ⟨(j, r) :: st.map, st.out ++ [[]]⟩ fields with
        | none => none
        | some (st2, fs) => some ({ st2 with out := st2.out.set r fs }, .ref r)
termination_by fuel _ _ => (fuel, 0)

/-- The field loop of `clone` (lines 315-320): clone each field value in
order, keeping a field unless `withFunctions` is false and the cloned value
is the function sentinel. -/
def cloneFields (heap : SrcHeap) (withFunctions : Bool) :
    Nat → CloneSt → ObjFields → Option (CloneSt × ObjFields)
  | _, st, [] => some (st, [])
  | fuel, st, (k, v) :: rest =>
    match cloneVal heap withFunctions fuel st v with
    | none => none
    | some (st1, c) =>
      match cloneFields heap withFunctions fuel st1 rest with
      | none => none
      | some (st2, crest) =>
        some (st2, if withFunctions || !(isFunctionSymbolH c) then (k, c) :: crest else crest)
termination_by fuel _ fs => (fuel, fs.length + 1)

end

/-- Field read `heap[i][k]`. -/
def getFieldH (heap : SrcHeap) (i : Nat) (k : String) : Option HVal :=
  match heap.get? i with
  | some fs => List.lookup k fs
  | none => none

/-- In-place field update of an existing key (hydration only overwrites
existing keys, it never adds any). -/
def replaceField (fs : ObjFields) (k : String) (v : HVal) : ObjFields :=
  fs.map fun kv => if kv.1 = k then (kv.1, v) else kv

/-- Field write `heap[i][k] = v` for an existing object `i`. -/
def setFieldH (heap : SrcHeap) (i : Nat) (k : String) (v : HVal) : SrcHeap :=
  match heap.get? i with
  | some fs => heap.set i (replaceField fs k v)
  | none => heap

/-- The state threaded through `hydrateRemote`: the (mutated in place) heap
and the `hydratedObjs` seen set. -/
structure HydSt where
  heap : SrcHeap
  seen : List Nat
deriving DecidableEq, Repr

mutual

/-- `hydrateRemote` (`messageHandler.ts` lines 196-211), with fuel.  The
object is first marked as seen (line 198, the circular-dependency guard),
then each of its cached keys (`Object.keys(obj)`, line 200) is processed in
order by `hydrateFields`. -/
def hydrateRemote : Nat → List String → Nat → HydSt → Option HydSt
  | 0, _, _, _ => none
  | fuel + 1, children, objId, st =>
    match st.heap.get? objId with
    | none => none
    | some fields =>
        hydrateFields fuel children objId (fields.map Prod.fst)
          { st with seen := objId :: st.seen }
termination_by fuel _ _ _ => (fuel, 0)

/-- The key loop of `hydrateRemote` (lines 200-210): a field whose current
value is the function sentinel is overwritten with a remote-method stub
bound to this object's path and the key; a field holding an object reference
not yet seen is hydrated recursively with the extended path; every other
field is left alone. -/
def hydrateFields : Nat → List String → Nat → List String → HydSt → Option HydSt
  | _, _, _, [], st => some st
  | fuel, children, objId, k :: rest, st =>
    match getFieldH st.heap objId k with
    | none => hydrateFields fuel children objId rest st
    | some v =>
      if isFunctionSymbolH v then
        hydrateFields fuel children objId rest
          { st with heap := setFieldH st.heap objId k (.stub children k) }
      else
        match v with
        | .ref j =>
          if st.seen.contains j then
            hydrateFields fuel children objId rest st
          else
            match hydrateRemote fuel (children ++ [k]) j st with
            | none => none
            | some st' => hydrateFields fuel children objId rest st'
        | _ => hydrateFields fuel children objId rest st
termination_by fuel _ _ keys _ => (fuel, keys.length + 1)

end

/-- Walking an object graph by a path of member names, one `obj[key]` step
per name, following object references — the receiver-side reading of the
path that `remoteMethod` stubs carry, mirroring the producer-side walk
`children.reduce((obj, key) => obj[key], this.host)` of
`messageHandler.ts` line 132. -/
def walkPath (heap : SrcHeap) : Nat → List String → Option Nat
  | i, [] => some i
  | i, k :: p =>
    match getFieldH heap i k with
    | some (.ref j) => walkPath heap j p
    | _ => none

/-! ## Specification-level predicates and invariants -/

/-- Formalisation of "the pending entry is stored before the message is
sent": in the effect trace of an origination, every registration of the
request's pending entry occurs strictly before the posting of the request
message itself. -/
def registeredBeforeSent (trace : List Effect) (reqId : Nat) : Prop :=
  ∀ i j m, trace.get? i = some (.post m) → m.reqId = reqId →
    trace.get? j = some (.registerReq reqId) → j < i

/-- Whether a trace posts a Reject message for the given reqId. -/
def postsRejectFor (trace : List Effect) (reqId : Nat) : Bool :=
  trace.any fun e =>
    match e with
    | .post (.reject id _) => id == reqId
    | _ => false

/-- `m2` is `m1` with zero or more newer entries prepended — how the
memoisation map and the seen set grow: entries are only ever added at the
front, never removed or changed. -/
def MapExtends {α : Type} (m1 m2 : List α) : Prop :=
  ∃ pre, m2 = pre ++ m1

/-- A graph field value mentions only objects of a heap of length `n`. -/
def hvalWF (n : Nat) : HVal → Bool
  | .ref j => decide (j < n)
  | _ => true

/-- A well-formed heap object: distinct field keys, in-range references. -/
def objWF (n : Nat) (fs : ObjFields) : Bool :=
  decide (fs.map Prod.fst).Nodup && fs.all fun kv => hvalWF n kv.2

/-- A well-formed heap: every object is well-formed. -/
def heapWF (heap : SrcHeap) : Bool :=
  heap.all (objWF heap.length)

/-- Invariant of the `clone` state: the memoisation map's keys are distinct
source objects of the heap. -/
def CloneInv (heap : SrcHeap) (st : CloneSt) : Prop :=
  (st.map.map Prod.fst).Nodup ∧ ∀ j ∈ st.map.map Prod.fst, j < heap.length

/-- Every object of an (evolving) heap keeps its references in range. -/
def RefsWFH (n : Nat) (heap : SrcHeap) : Prop :=
  ∀ i fs, heap.get? i = some fs → ∀ kv ∈ fs, hvalWF n kv.2 = true

/-- Invariant of the `hydrateRemote` state over a heap of original length
`n`: the seen set holds distinct objects of the heap, the heap keeps its
length (hydration never allocates), and references stay in range. -/
def HydInv (n : Nat) (st : HydSt) : Prop :=
  st.seen.Nodup ∧ (∀ i ∈ st.seen, i < n) ∧ st.heap.length = n ∧ RefsWFH n st.heap

/-- What one (partial or complete) run of the hydration traversal does to
the state, over a heap of original length `n` hydrated from root `root`:
the seen set only grows; the heap keeps its length; non-sentinel fields
keep their values (frame); a field holds an object reference afterwards
exactly when it did before (hydration neither creates nor destroys
references, so path walks are stable); a sentinel field either stays a
sentinel or becomes a stub for its own key; objects never seen are wholly
untouched; the successors of every newly seen object are seen (the seen
set is closed over the edges of newly seen objects — the DFS completeness
invariant); and every sentinel field of a newly seen object becomes a stub
whose recorded path walks from `root` to that very object. -/
structure HydStep (n root : Nat) (st st' : HydSt) : Prop where
  seenExt : MapExtends st.seen st'.seen
  lenEq : st'.heap.length = st.heap.length
  frame : ∀ i k v, getFieldH st.heap i k = some v → isFunctionSymbolH v = false →
    getFieldH st'.heap i k = some v
  refEq : ∀ i k j, getFieldH st'.heap i k = some (.ref j) ↔ getFieldH st.heap i k = some (.ref j)
  dich : ∀ i k, getFieldH st.heap i k = some funcMarkerH →
    getFieldH st'.heap i k = some funcMarkerH ∨ ∃ p, getFieldH st'.heap i k = some (.stub p k)
  untouched : ∀ i, i ∉ st'.seen → st'.heap.get? i = st.heap.get? i
  closure : ∀ x ∈ st'.seen, x ∉ st.seen → ∀ k j,
    getFieldH st'.heap x k = some (.ref j) → j ∈ st'.seen
  markSeen : ∀ i ∈ st'.seen, i ∉ st.seen → ∀ k,
    getFieldH st.heap i k = some funcMarkerH →
    ∃ q, getFieldH st'.heap i k = some (.stub q k) ∧ walkPath st.heap root q = some i

/-! # Theorems -/

/-! ## General helper lemmas about association lists -/

theorem isFunctionSymbol_iff (v : SVal) :
    isFunctionSymbol v = true ↔ v = .prim (.str FunctionSymbol) := by
  cases v with
  | prim p => cases p <;> simp [isFunctionSymbol]
  | func => simp [isFunctionSymbol]
  | obj _ => simp [isFunctionSymbol]

theorem isFunctionSymbolH_iff (v : HVal) :
    isFunctionSymbolH v = true ↔ v = funcMarkerH := by
  cases v with
  | prim p => cases p <;> simp [isFunctionSymbolH, funcMarkerH, FunctionSymbol]
  | func => simp [isFunctionSymbolH, funcMarkerH]
  | ref _ => simp [isFunctionSymbolH, funcMarkerH]
  | stub _ _ => simp [isFunctionSymbolH, funcMarkerH]

theorem lookup_cons {α β : Type} [BEq α] (a k : α) (b : β) (es : List (α × β)) :
    List.lookup a ((k, b) :: es) = if a == k then some b else List.lookup a es := by
  simp only [List.lookup]
  rcases h : a == k with _ | _ <;> simp [h]

theorem lookup_eq_none_iff {α : Type} (l : List (Nat × α)) (j : Nat) :
    List.lookup j l = none ↔ ∀ p ∈ l, p.1 ≠ j := by
  induction l with
  | nil => simp
  | cons hd tl ih =>
      obtain ⟨k, b⟩ := hd
      rw [lookup_cons]
      by_cases hk : j = k
      · subst hk; simp
      · simp only [beq_iff_eq, hk, if_false, ih, List.mem_cons]
        constructor
        · rintro h p (rfl | hp)
          · simpa using Ne.symm hk
          · exact h p hp
        · intro h p hp; exact h p (Or.inr hp)

theorem lookup_mem_keys {α β : Type} [BEq α] [LawfulBEq α] {l : List (α × β)} {j : α} {r : β}
    (h : List.lookup j l = some r) : j ∈ l.map Prod.fst := by
  induction l with
  | nil => simp at h
  | cons hd tl ih =>
      obtain ⟨k, b⟩ := hd
      rw [lookup_cons] at h
      by_cases hk : j = k
      · subst hk; simp
      · simp only [beq_iff_eq, hk, if_false] at h
        simpa using Or.inr (ih h)

theorem lookup_append_left {α : Type} {l1 l2 : List (Nat × α)} {j : Nat} {r : α}
    (h : List.lookup j l1 = some r) : List.lookup j (l1 ++ l2) = some r := by
  induction l1 with
  | nil => simp at h
  | cons hd tl ih =>
      obtain ⟨k, b⟩ := hd
      rw [lookup_cons] at h
      rw [List.cons_append, lookup_cons]
      by_cases hk : j = k
      · simpa [hk] using h
      · simp only [beq_iff_eq, hk, if_false] at h ⊢
        exact ih h

theorem mem_of_lookup {α β : Type} [BEq α] [LawfulBEq α] {l : List (α × β)} {k : α} {v : β}
    (h : List.lookup k l = some v) : (k, v) ∈ l := by
  induction l with
  | nil => simp at h
  | cons hd tl ih =>
      obtain ⟨k0, b⟩ := hd
      rw [lookup_cons] at h
      rcases hk : k == k0 with _ | _
      · rw [hk] at h
        simp only [Bool.false_eq_true, if_false] at h
        exact List.mem_cons_of_mem _ (ih h)
      · rw [hk] at h
        simp only [if_true, Option.some.injEq] at h
        have hke : k = k0 := eq_of_beq hk
        subst hke
        rw [← h]
        exact List.mem_cons_self _ _

theorem lookup_append_some {α β : Type} [BEq α] {l1 l2 : List (α × β)} {k : α} {r : β}
    (h : List.lookup k l1 = some r) : List.lookup k (l1 ++ l2) = some r := by
  induction l1 with
  | nil => simp at h
  | cons hd tl ih =>
      obtain ⟨k0, b⟩ := hd
      rw [lookup_cons] at h
      rw [List.cons_append, lookup_cons]
      rcases hk : k == k0 with _ | _
      · rw [hk] at h; simpa using ih h
      · rw [hk] at h; simpa using h

theorem lookup_append_none {α β : Type} [BEq α] {l1 l2 : List (α × β)} {k : α}
    (h : List.lookup k l1 = none) : List.lookup k (l1 ++ l2) = List.lookup k l2 := by
  induction l1 with
  | nil => simp
  | cons hd tl ih =>
      obtain ⟨k0, b⟩ := hd
      rw [lookup_cons] at h
      rw [List.cons_append, lookup_cons]
      rcases hk : k == k0 with _ | _
      · rw [hk] at h; simpa using ih h
      · rw [hk] at h; simp at h

theorem lookup_map_replace_self {β : Type} {fs : List (String × β)} {k : String} (v : β)
    (h : (List.lookup k fs).isSome) :
    List.lookup k (fs.map fun kv => if kv.1 = k then (kv.1, v) else kv) = some v := by
  induction fs with
  | nil => simp at h
  | cons hd rest ih =>
      obtain ⟨k0, v0⟩ := hd
      by_cases hk : k0 = k
      · subst hk
        simp [lookup_cons]
      · have hk' : (k == k0) = false := by simp [Ne.symm hk]
        simp only [lookup_cons, hk'] at h
        simp only [List.map_cons, if_neg hk, lookup_cons, hk', Bool.false_eq_true, if_false]
        exact ih (by simpa using h)

theorem lookup_map_replace_ne {β : Type} {fs : List (String × β)} {k k' : String} (v : β)
    (h : k' ≠ k) :
    List.lookup k' (fs.map fun kv => if kv.1 = k then (kv.1, v) else kv) =
      List.lookup k' fs := by
  induction fs with
  | nil => simp
  | cons hd rest ih =>
      obtain ⟨k0, v0⟩ := hd
      by_cases hk : k0 = k
      · subst hk
        have hk' : (k' == k0) = false := by simp [h]
        simp [lookup_cons, hk', ih]
      · simp only [List.map_cons, if_neg hk, lookup_cons]
        rcases hk' : k' == k0 with _ | _ <;> simp [ih]

theorem lookup_setField_self (fs : List (String × SVal)) (k : String) (v : SVal) :
    List.lookup k (setField fs k v) = some v := by
  unfold setField
  rcases h : (List.lookup k fs).isSome with _ | _
  · have hnone : List.lookup k fs = none := by
      rcases hl : List.lookup k fs with _ | w
      · rfl
      · rw [hl] at h; simp at h
    simp only [Bool.false_eq_true, if_false]
    rw [lookup_append_none hnone, lookup_cons]
    simp
  · simp only [if_true]
    exact lookup_map_replace_self v h

theorem lookup_setField_ne (fs : List (String × SVal)) {k k' : String} (v : SVal)
    (h : k' ≠ k) :
    List.lookup k' (setField fs k v) = List.lookup k' fs := by
  unfold setField
  rcases hq : (List.lookup k fs).isSome with _ | _
  · simp only [Bool.false_eq_true, if_false]
    rcases hl : List.lookup k' fs with _ | w
    · rw [lookup_append_none hl, lookup_cons]
      simp [h]
    · exact lookup_append_some hl
  · simp only [if_true]
    exact lookup_map_replace_ne v h

/-- A field present in the source and whose clone is not the function
sentinel survives the `clone(…, false)` field loop with its cloned value. -/
theorem lookup_cloneSFields {fs : List (String × SVal)} {k : String} {v : SVal}
    (h : List.lookup k fs = some v) (hv : isFunctionSymbol (cloneS false v) = false) :
    List.lookup k (cloneSFields false fs) = some (cloneS false v) := by
  induction fs with
  | nil => simp at h
  | cons hd rest ih =>
      obtain ⟨k0, v0⟩ := hd
      rw [lookup_cons] at h
      rcases hk : k == k0 with _ | _
      · rw [hk] at h
        simp only [Bool.false_eq_true, if_false] at h
        simp only [cloneSFields, Bool.false_or]
        split
        · rw [lookup_cons, hk]
          simp only [Bool.false_eq_true, if_false]
          exact ih h
        · exact ih h
      · rw [hk] at h
        simp only [if_true, Option.some.injEq] at h
        subst h
        simp only [cloneSFields, Bool.false_or, hv, Bool.not_false, if_true]
        rw [lookup_cons, hk]
        simp

theorem MapExtends.refl {α : Type} (m : List α) : MapExtends m m := ⟨[], rfl⟩

theorem MapExtends.trans {α : Type} {m1 m2 m3 : List α}
    (h12 : MapExtends m1 m2) (h23 : MapExtends m2 m3) : MapExtends m1 m3 := by
  obtain ⟨p1, rfl⟩ := h12
  obtain ⟨p2, rfl⟩ := h23
  exact ⟨p2 ++ p1, by simp⟩

theorem MapExtends.length_le {α : Type} {m1 m2 : List α} (h : MapExtends m1 m2) :
    m1.length ≤ m2.length := by
  obtain ⟨pre, rfl⟩ := h
  simp

theorem MapExtends.mem {α : Type} {m1 m2 : List α} (h : MapExtends m1 m2) {a : α}
    (ha : a ∈ m1) : a ∈ m2 := by
  obtain ⟨pre, rfl⟩ := h
  exact List.mem_append_right pre ha

theorem MapExtends.cons {α : Type} (a : α) (m : List α) : MapExtends m (a :: m) :=
  ⟨[a], rfl⟩

/-- Entries of the memoisation map persist: a key bound in an older map keeps
its binding in any extension with distinct keys. -/
theorem lookup_extends {α : Type} {m1 m2 : List (Nat × α)} (hext : MapExtends m1 m2)
    (nd : (m2.map Prod.fst).Nodup) {j : Nat} {r : α}
    (h : List.lookup j m1 = some r) : List.lookup j m2 = some r := by
  obtain ⟨pre, rfl⟩ := hext
  induction pre with
  | nil => simpa using h
  | cons hd tl ih =>
      obtain ⟨k, b⟩ := hd
      rw [List.cons_append, List.map_cons, List.nodup_cons] at nd
      obtain ⟨hk, nd'⟩ := nd
      have hne : j ≠ k := by
        rintro rfl
        exact hk (by simpa using Or.inr (lookup_mem_keys h))
      rw [List.cons_append, lookup_cons]
      simp only [beq_iff_eq, hne, if_false]
      exact ih nd'

/-- Pigeonhole: a duplicate-free list of naturals below `n`, missing some
`j < n`, has length below `n`. -/
theorem length_lt_of_not_mem {l : List Nat} {n : Nat} (nd : l.Nodup)
    (hb : ∀ x ∈ l, x < n) {j : Nat} (hj : j < n) (hnm : j ∉ l) : l.length < n := by
  have hcard : l.toFinset.card = l.length := List.toFinset_card_of_nodup nd
  have hsub : l.toFinset ⊆ (Finset.range n).erase j := by
    intro x hx
    rw [List.mem_toFinset] at hx
    exact Finset.mem_erase.mpr ⟨by rintro rfl; exact hnm hx, Finset.mem_range.mpr (hb x hx)⟩
  have := Finset.card_le_card hsub
  rw [hcard, Finset.card_erase_of_mem (Finset.mem_range.mpr hj), Finset.card_range] at this
  omega

/-! ## Helper lemmas about the request table and stream registry -/

theorem not_mem_eraseReq_self (rs : List Nat) (reqId : Nat) :
    reqId ∉ eraseReq rs reqId := by
  intro hm
  rcases List.mem_filter.mp hm with ⟨_, hp⟩
  simp at hp

theorem lookup_eraseIter_self (l : List (Nat × IterHandle)) (reqId : Nat) :
    List.lookup reqId (eraseIter l reqId) = none := by
  rw [lookup_eq_none_iff]
  intro p hp
  rcases List.mem_filter.mp hp with ⟨_, hkeep⟩
  simpa using hkeep

theorem eraseIter_eq_self {l : List (Nat × IterHandle)} {reqId : Nat}
    (h : List.lookup reqId l = none) : eraseIter l reqId = l := by
  apply List.filter_eq_self.mpr
  intro p hp
  have := (lookup_eq_none_iff l reqId).mp h p hp
  simpa using this

/-! ## Helper lemmas about heap field updates -/

theorem setFieldH_length (heap : SrcHeap) (i : Nat) (k : String) (v : HVal) :
    (setFieldH heap i k v).length = heap.length := by
  unfold setFieldH
  rcases heap.get? i with _ | fs
  · rfl
  · exact List.length_set _ _ _

theorem get?_setFieldH_ne (heap : SrcHeap) (i : Nat) (k : String) (v : HVal) {i' : Nat}
    (h : i' ≠ i) : (setFieldH heap i k v).get? i' = heap.get? i' := by
  unfold setFieldH
  rcases heap.get? i with _ | fs
  · rfl
  · exact List.get?_set_ne _ _ (fun he => h he.symm)

theorem getFieldH_setFieldH_self (heap : SrcHeap) (i : Nat) (k : String) (v : HVal)
    {w : HVal} (h : getFieldH heap i k = some w) :
    getFieldH (setFieldH heap i k v) i k = some v := by
  unfold getFieldH at h ⊢
  unfold setFieldH
  rcases hg : heap.get? i with _ | fs
  · rw [hg] at h; simp at h
  · rw [hg] at h
    have h' : List.lookup k fs = some w := h
    have hlt : i < heap.length := (List.get?_eq_some.mp hg).1
    rw [List.get?_set_eq_of_lt _ hlt]
    exact lookup_map_replace_self v (by rw [h']; rfl)

theorem getFieldH_setFieldH_ne (heap : SrcHeap) (i : Nat) (k : String) (v : HVal)
    {i' : Nat} {k' : String} (h : i' ≠ i ∨ k' ≠ k) :
    getFieldH (setFieldH heap i k v) i' k' = getFieldH heap i' k' := by
  rcases h with hii | hkk
  · unfold getFieldH
    rw [get?_setFieldH_ne heap i k v hii]
  · unfold getFieldH setFieldH
    rcases hg : heap.get? i with _ | fs
    · rfl
    · by_cases hii : i' = i
      · subst hii
        have hlt : i' < heap.length := (List.get?_eq_some.mp hg).1
        rw [List.get?_set_eq_of_lt _ hlt, hg]
        exact lookup_map_replace_ne v hkk
      · rw [List.get?_set_ne _ _ (fun he => hii he.symm)]

theorem getFieldH_congr {heap1 heap2 : SrcHeap} {i : Nat}
    (h : heap1.get? i = heap2.get? i) (k : String) :
    getFieldH heap1 i k = getFieldH heap2 i k := by
  unfold getFieldH
  rw [h]

theorem refsWFH_setFieldH {n : Nat} {heap : SrcHeap} (i : Nat) (k : String)
    (p : List String) (m' : String) (h : RefsWFH n heap) :
    RefsWFH n (setFieldH heap i k (.stub p m')) := by
  intro i' fs' hg kv hkv
  unfold setFieldH at hg
  rcases hgi : heap.get? i with _ | fs
  · rw [hgi] at hg
    exact h i' fs' hg kv hkv
  · rw [hgi] at hg
    by_cases hii : i' = i
    · subst hii
      have hlt : i' < heap.length := (List.get?_eq_some.mp hgi).1
      rw [List.get?_set_eq_of_lt _ hlt] at hg
      injection hg with hg'
      subst hg'
      obtain ⟨kv0, hkv0, hkv0'⟩ := List.mem_map.mp hkv
      by_cases hk0 : kv0.1 = k
      · rw [if_pos hk0] at hkv0'
        rw [← hkv0']
        rfl
      · rw [if_neg hk0] at hkv0'
        rw [← hkv0']
        exact h i' fs hgi kv0 hkv0
    · rw [List.get?_set_ne _ _ (fun he => hii he.symm)] at hg
      exact h i' fs' hg kv hkv

/-! ## Helper lemmas about heap well-formedness and `clone` -/

theorem hvalWF_ref {n j : Nat} (h : hvalWF n (.ref j) = true) : j < n := by
  simpa [hvalWF] using h

theorem heapWF_fields {heap : SrcHeap} (hwf : heapWF heap = true) {j : Nat} {fs : ObjFields}
    (hj : heap.get? j = some fs) :
    (fs.map Prod.fst).Nodup ∧ ∀ kv ∈ fs, hvalWF heap.length kv.2 = true := by
  have hmem : fs ∈ heap := List.get?_mem hj
  rw [heapWF, List.all_eq_true] at hwf
  have := hwf fs hmem
  rw [objWF, Bool.and_eq_true, List.all_eq_true] at this
  exact ⟨by simpa using this.1, this.2⟩

/-- Unfolding of `cloneVal` on a reference already memoised: the existing
clone is returned unchanged (`messageHandler.ts` lines 305-308). -/
theorem cloneVal_ref_memo (heap : SrcHeap) (wfn : Bool) (fuel : Nat) (st : CloneSt)
    (j r : Nat) (hl : List.lookup j st.map = some r) :
    cloneVal heap wfn fuel st (.ref j) = some (st, .ref r) := by
  rcases fuel with _ | f
  · rw [cloneVal.eq_4, hl]
  · rcases hg : heap.get? j with _ | fields
    · rw [cloneVal.eq_5 _ _ _ _ _ hg, hl]
    · rw [cloneVal.eq_6 _ _ _ _ _ _ hg, hl]

/-- Unfolding of `cloneVal` on a reference not yet memoised, with fuel to
spare: allocate the clone, memoise it, clone the fields, store them
(`messageHandler.ts` lines 310-320). -/
theorem cloneVal_ref_new (heap : SrcHeap) (wfn : Bool) (fuel' : Nat) (st : CloneSt)
    (j : Nat) (fields : ObjFields) (hl : List.lookup j st.map = none)
    (hg : heap.get? j = some fields) :
    cloneVal heap wfn (fuel' + 1) st (.ref j) =
      (match cloneFields heap wfn fuel' ⟨(j, st.out.length) :: st.map, st.out ++ [[]]⟩ fields with
       | none => none
       | some (st2, fs) =>
          some ({ st2 with out := st2.out.set st.out.length fs }, .ref st.out.length)) := by
  rw [cloneVal.eq_6 _ _ _ _ _ _ hg, hl]

/-- Totality, invariant preservation, map growth and the ref
characterisation of `cloneVal`/`cloneFields`, by strong induction on the
number of heap objects not yet memoised: recursion only ever goes deeper on
an object absent from the memoisation map, and the map — which holds
distinct heap objects — can only grow, so the number of unmemoised objects
bounds the recursion depth. -/
theorem clone_total_aux (heap : SrcHeap) (wfn : Bool) (hwf : heapWF heap = true) :
    ∀ n : Nat,
      (∀ fuel st v, CloneInv heap st → hvalWF heap.length v = true →
        heap.length - st.map.length ≤ n → n ≤ fuel →
        ∃ st' c, cloneVal heap wfn fuel st v = some (st', c) ∧
          CloneInv heap st' ∧ MapExtends st.map st'.map ∧
          st.out.length ≤ st'.out.length ∧
          (∀ j, v = .ref j → ∃ r, c = .ref r ∧ List.lookup j st'.map = some r)) ∧
      (∀ fuel st fs, CloneInv heap st → (∀ kv ∈ fs, hvalWF heap.length kv.2 = true) →
        heap.length - st.map.length ≤ n → n ≤ fuel →
        ∃ st' fs', cloneFields heap wfn fuel st fs = some (st', fs') ∧
          CloneInv heap st' ∧ MapExtends st.map st'.map ∧
          st.out.length ≤ st'.out.length) := by
  intro n
  induction n using Nat.strong_induction_on with
  | _ n IH =>
    have hP : ∀ fuel st v, CloneInv heap st → hvalWF heap.length v = true →
        heap.length - st.map.length ≤ n → n ≤ fuel →
        ∃ st' c, cloneVal heap wfn fuel st v = some (st', c) ∧
          CloneInv heap st' ∧ MapExtends st.map st'.map ∧
          st.out.length ≤ st'.out.length ∧
          (∀ j, v = .ref j → ∃ r, c = .ref r ∧ List.lookup j st'.map = some r) := by
      intro fuel st v hinv hwfv hbound hfuel
      match v with
      | .prim p =>
          exact ⟨st, .prim p, by simp [cloneVal], hinv, MapExtends.refl _, le_refl _, by simp⟩
      | .func =>
          exact ⟨st, .prim (.str FunctionSymbol), by simp [cloneVal], hinv, MapExtends.refl _,
            le_refl _, by simp⟩
      | .stub c m =>
          exact ⟨st, .prim (.str FunctionSymbol), by simp [cloneVal], hinv, MapExtends.refl _,
            le_refl _, by simp⟩
      | .ref j =>
          rcases hl : List.lookup j st.map with _ | r
          · -- not yet cloned: allocate, memoise, clone fields
            have hjlt : j < heap.length := hvalWF_ref hwfv
            have hnotmem : j ∉ st.map.map Prod.fst := by
              intro hm
              obtain ⟨p, hp, hfst⟩ := List.mem_map.mp hm
              exact (lookup_eq_none_iff _ _).mp hl p hp hfst
            have hlenlt : st.map.length < heap.length := by
              have hkeys : (st.map.map Prod.fst).length < heap.length :=
                length_lt_of_not_mem hinv.1 hinv.2 hjlt hnotmem
              simpa using hkeys
            have hn1 : 1 ≤ n := by omega
            obtain ⟨n', rfl⟩ : ∃ n', n = n' + 1 := ⟨n - 1, by omega⟩
            obtain ⟨fuel', rfl⟩ : ∃ f', fuel = f' + 1 := ⟨fuel - 1, by omega⟩
            have hget : heap.get? j = some (heap.get ⟨j, hjlt⟩) := List.get?_eq_get hjlt
            obtain ⟨hnd, hkvwf⟩ := heapWF_fields hwf hget
            have hinv1 : CloneInv heap ⟨(j, st.out.length) :: st.map, st.out ++ [[]]⟩ := by
              refine ⟨?_, ?_⟩
              · show (List.map Prod.fst ((j, st.out.length) :: st.map)).Nodup
                rw [List.map_cons]
                exact List.nodup_cons.mpr ⟨hnotmem, hinv.1⟩
              · show ∀ x ∈ List.map Prod.fst ((j, st.out.length) :: st.map), x < heap.length
                intro x hx
                rw [List.map_cons, List.mem_cons] at hx
                rcases hx with rfl | hx'
                · exact hjlt
                · exact hinv.2 x hx'
            have hb1 : heap.length - ((j, st.out.length) :: st.map).length ≤ n' := by
              rw [List.length_cons]
              omega
            obtain ⟨st2, fs2, heq2, hinv2, hext2, hout2⟩ :=
              (IH n' (by omega)).2 fuel' ⟨(j, st.out.length) :: st.map, st.out ++ [[]]⟩
                (heap.get ⟨j, hjlt⟩) hinv1 hkvwf hb1 (by omega)
            have hlk1 : List.lookup j ((j, st.out.length) :: st.map) = some st.out.length := by
              rw [lookup_cons]; simp
            have hlkf : List.lookup j st2.map = some st.out.length :=
              lookup_extends hext2 hinv2.1 hlk1
            refine ⟨{ st2 with out := st2.out.set st.out.length fs2 }, .ref st.out.length,
              ?_, ⟨hinv2.1, hinv2.2⟩, ?_, ?_, ?_⟩
            · rw [cloneVal_ref_new heap wfn fuel' st j _ hl hget, heq2]
            · exact (MapExtends.cons _ _).trans hext2
            · have hout2' : (st.out ++ [[]]).length ≤ st2.out.length := hout2
              show st.out.length ≤ (st2.out.set st.out.length fs2).length
              rw [List.length_set]
              rw [List.length_append] at hout2'
              simp only [List.length_cons, List.length_nil] at hout2'
              omega
            · rintro j' hj'
              injection hj' with hjj
              subst hjj
              exact ⟨st.out.length, rfl, hlkf⟩
          · -- already cloned: return the memoised clone
            refine ⟨st, .ref r, cloneVal_ref_memo heap wfn fuel st j r hl, hinv,
              MapExtends.refl _, le_refl _, ?_⟩
            rintro j' hj'
            injection hj' with hjj
            subst hjj
            exact ⟨r, rfl, hl⟩
    refine ⟨hP, ?_⟩
    intro fuel
    have hQ : ∀ fs st, CloneInv heap st → (∀ kv ∈ fs, hvalWF heap.length kv.2 = true) →
        heap.length - st.map.length ≤ n → n ≤ fuel →
        ∃ st' fs', cloneFields heap wfn fuel st fs = some (st', fs') ∧
          CloneInv heap st' ∧ MapExtends st.map st'.map ∧
          st.out.length ≤ st'.out.length := by
      intro fs
      induction fs with
      | nil =>
          intro st hinv _ _ _
          exact ⟨st, [], by simp [cloneFields], hinv, MapExtends.refl _, le_refl _⟩
      | cons hd rest ihfs =>
          intro st hinv hwfs hbound hfuel
          obtain ⟨k, v⟩ := hd
          obtain ⟨st1, c, heq1, hinv1, hext1, hout1, _⟩ :=
            hP fuel st v hinv (hwfs (k, v) (List.mem_cons_self _ _)) hbound hfuel
          have hb1 : heap.length - st1.map.length ≤ n := by
            have := hext1.length_le
            omega
          obtain ⟨st2, crest, heq2, hinv2, hext2, hout2⟩ :=
            ihfs st1 hinv1 (fun kv hkv => hwfs kv (List.mem_cons_of_mem _ hkv)) hb1 hfuel
          refine ⟨st2, if wfn || !(isFunctionSymbolH c) then (k, c) :: crest else crest,
            ?_, hinv2, hext1.trans hext2, le_trans hout1 hout2⟩
          simp only [cloneFields, heq1, heq2]
    exact fun st fs hinv hwfs hbound hfuel => hQ fs st hinv hwfs hbound hfuel

/-- Totality of `cloneVal` whenever the fuel covers the unmemoised objects. -/
theorem cloneVal_total (heap : SrcHeap) (wfn : Bool) (hwf : heapWF heap = true)
    (fuel : Nat) (st : CloneSt) (v : HVal) (hinv : CloneInv heap st)
    (hwfv : hvalWF heap.length v = true) (hfuel : heap.length - st.map.length ≤ fuel) :
    ∃ st' c, cloneVal heap wfn fuel st v = some (st', c) ∧
      CloneInv heap st' ∧ MapExtends st.map st'.map ∧
      st.out.length ≤ st'.out.length ∧
      (∀ j, v = .ref j → ∃ r, c = .ref r ∧ List.lookup j st'.map = some r) :=
  (clone_total_aux heap wfn hwf (heap.length - st.map.length)).1 fuel st v hinv hwfv
    (le_refl _) hfuel

/-- Totality of `cloneFields` whenever the fuel covers the unmemoised
objects. -/
theorem cloneFields_total (heap : SrcHeap) (wfn : Bool) (hwf : heapWF heap = true)
    (fuel : Nat) (st : CloneSt) (fs : ObjFields) (hinv : CloneInv heap st)
    (hwfs : ∀ kv ∈ fs, hvalWF heap.length kv.2 = true)
    (hfuel : heap.length - st.map.length ≤ fuel) :
    ∃ st' fs', cloneFields heap wfn fuel st fs = some (st', fs') ∧
      CloneInv heap st' ∧ MapExtends st.map st'.map ∧
      st.out.length ≤ st'.out.length :=
  (clone_total_aux heap wfn hwf (heap.length - st.map.length)).2 fuel st fs hinv hwfs
    (le_refl _) hfuel

/-- Two fields of one object referencing the same source object are cloned
to the same clone reference: the first visit memoises the clone, the second
lookup hits the memoisation map, and map entries persist. -/
theorem cloneFields_lookup_ref (heap : SrcHeap) (wfn : Bool) (hwf : heapWF heap = true) :
    ∀ (fs : ObjFields) (fuel : Nat) (st : CloneSt) (k : String) (j : Nat),
      CloneInv heap st → (∀ kv ∈ fs, hvalWF heap.length kv.2 = true) →
      heap.length - st.map.length ≤ fuel →
      List.lookup k fs = some (.ref j) →
      ∃ st' fs' r, cloneFields heap wfn fuel st fs = some (st', fs') ∧
        List.lookup k fs' = some (.ref r) ∧ List.lookup j st'.map = some r ∧
        CloneInv heap st' ∧ MapExtends st.map st'.map ∧
        st.out.length ≤ st'.out.length := by
  intro fs
  induction fs with
  | nil =>
      intro fuel st k j _ _ _ hlk
      simp at hlk
  | cons hd rest ihfs =>
      intro fuel st k j hinv hwfs hfuel hlk
      obtain ⟨k0, v0⟩ := hd
      rw [lookup_cons] at hlk
      rcases hk : k == k0 with _ | _
      · -- the field is further down the list
        rw [hk] at hlk
        simp only [Bool.false_eq_true, if_false] at hlk
        obtain ⟨st1, c, heq1, hinv1, hext1, hout1, _⟩ :=
          cloneVal_total heap wfn hwf fuel st v0 hinv
            (hwfs (k0, v0) (List.mem_cons_self _ _)) hfuel
        have hb1 : heap.length - st1.map.length ≤ fuel := by
          have := hext1.length_le
          omega
        obtain ⟨st2, fs2, r, heq2, hlk2, hmap2, hinv2, hext2, hout2⟩ :=
          ihfs fuel st1 k j hinv1 (fun kv hkv => hwfs kv (List.mem_cons_of_mem _ hkv)) hb1 hlk
        refine ⟨st2, if wfn || !(isFunctionSymbolH c) then (k0, c) :: fs2 else fs2, r,
          ?_, ?_, hmap2, hinv2, hext1.trans hext2, le_trans hout1 hout2⟩
        · simp only [cloneFields, heq1, heq2]
        · split
          · rw [lookup_cons, hk]
            simpa using hlk2
          · exact hlk2
      · -- the field is the head: its value is the shared reference
        rw [hk] at hlk
        simp only [if_true, Option.some.injEq] at hlk
        subst hlk
        obtain ⟨st1, c, heq1, hinv1, hext1, hout1, hrefc⟩ :=
          cloneVal_total heap wfn hwf fuel st (.ref j) hinv
            (hwfs (k0, .ref j) (List.mem_cons_self _ _)) hfuel
        obtain ⟨r, rfl, hmap1⟩ := hrefc j rfl
        have hb1 : heap.length - st1.map.length ≤ fuel := by
          have := hext1.length_le
          omega
        obtain ⟨st2, fs2, heq2, hinv2, hext2, hout2⟩ :=
          cloneFields_total heap wfn hwf fuel st1 rest hinv1
            (fun kv hkv => hwfs kv (List.mem_cons_of_mem _ hkv)) hb1
        have hmap2 : List.lookup j st2.map = some r := lookup_extends hext2 hinv2.1 hmap1
        refine ⟨st2, (k0, .ref r) :: fs2, r, ?_, ?_, hmap2, hinv2,
          hext1.trans hext2, le_trans hout1 hout2⟩
        · simp only [cloneFields, heq1, heq2]
          simp [isFunctionSymbolH]
        · rw [lookup_cons, hk]
          simp

/-! ## Path walks and hydration steps -/

/-- Two heaps with the same reference fields give the same path walks. -/
theorem walkPath_congr {h1 h2 : SrcHeap}
    (hre : ∀ i k j, getFieldH h1 i k = some (.ref j) ↔ getFieldH h2 i k = some (.ref j)) :
    ∀ (p : List String) (i : Nat), walkPath h1 i p = walkPath h2 i p := by
  intro p
  induction p with
  | nil => intro i; rfl
  | cons k rest ih =>
      intro i
      rcases hv : getFieldH h1 i k with _ | v
      · rcases hv2 : getFieldH h2 i k with _ | v2
        · simp [walkPath, hv, hv2]
        · rcases v2 with p2 | _ | j2 | ⟨pc2, mc2⟩
          · simp [walkPath, hv, hv2]
          · simp [walkPath, hv, hv2]
          · exact absurd ((hre i k j2).mpr hv2) (by rw [hv]; simp)
          · simp [walkPath, hv, hv2]
      · rcases v with p1 | _ | j1 | ⟨pc1, mc1⟩
        case ref =>
          have hv2 : getFieldH h2 i k = some (.ref j1) := (hre i k j1).mp hv
          simp only [walkPath, hv, hv2]
          exact ih j1
        all_goals (
          rcases hv2 : getFieldH h2 i k with _ | v2
          · simp [walkPath, hv, hv2]
          · rcases v2 with p2 | _ | j2 | ⟨pc2, mc2⟩
            · simp [walkPath, hv, hv2]
            · simp [walkPath, hv, hv2]
            · exact absurd ((hre i k j2).mpr hv2) (by rw [hv]; simp)
            · simp [walkPath, hv, hv2])

/-- Walking one extra step at the end of a path. -/
theorem walkPath_snoc (heap : SrcHeap) :
    ∀ (p : List String) (i : Nat) (k : String),
      walkPath heap i (p ++ [k]) =
        match walkPath heap i p with
        | some x =>
            match getFieldH heap x k with
            | some (.ref j) => some j
            | _ => none
        | none => none := by
  intro p
  induction p with
  | nil =>
      intro i k
      show walkPath heap i [k] = _
      rcases hv : getFieldH heap i k with _ | v
      · simp [walkPath, hv]
      · rcases v with p1 | _ | j1 | ⟨pc1, mc1⟩ <;> simp [walkPath, hv]
  | cons k0 rest ih =>
      intro i k
      rcases hv : getFieldH heap i k0 with _ | v
      · simp [walkPath, hv]
      · rcases v with p1 | _ | j1 | ⟨pc1, mc1⟩ <;> simp [walkPath, hv, ih]

/-- The empty hydration step. -/
theorem HydStep.idStep (n root : Nat) (st : HydSt) : HydStep n root st st :=
  { seenExt := MapExtends.refl _
    lenEq := rfl
    frame := fun _ _ _ hv _ => hv
    refEq := fun _ _ _ => Iff.rfl
    dich := fun _ _ h => Or.inl h
    untouched := fun _ _ => rfl
    closure := fun x hx hnx => absurd hx hnx
    markSeen := fun i hi hni => absurd hi hni }

/-- Hydration steps compose. -/
theorem HydStep.comp {n root : Nat} {st1 st2 st3 : HydSt}
    (a : HydStep n root st1 st2) (b : HydStep n root st2 st3) : HydStep n root st1 st3 := by
  refine { seenExt := a.seenExt.trans b.seenExt
           lenEq := b.lenEq.trans a.lenEq
           frame := fun i k v hv hm => b.frame i k v (a.frame i k v hv hm) hm
           refEq := fun i k j => (b.refEq i k j).trans (a.refEq i k j)
           dich := ?_
           untouched := ?_
           closure := ?_
           markSeen := ?_ }
  · intro i k h
    rcases a.dich i k h with h2 | ⟨p, hp⟩
    · exact b.dich i k h2
    · exact Or.inr ⟨p, b.frame i k _ hp (by rfl)⟩
  · intro i hi3
    have hi2 : i ∉ st2.seen := fun h => hi3 (b.seenExt.mem h)
    rw [b.untouched i hi3, a.untouched i hi2]
  · intro x hx3 hnx1 k j href
    by_cases hx2 : x ∈ st2.seen
    · have href2 : getFieldH st2.heap x k = some (.ref j) := (b.refEq x k j).mp href
      exact b.seenExt.mem (a.closure x hx2 hnx1 k j href2)
    · exact b.closure x hx3 hx2 k j href
  · intro i hi3 hni1 k hmk
    by_cases hi2 : i ∈ st2.seen
    · obtain ⟨q, hq, hwq⟩ := a.markSeen i hi2 hni1 k hmk
      exact ⟨q, b.frame i k _ hq (by rfl), hwq⟩
    · have hmk2 : getFieldH st2.heap i k = some funcMarkerH := by
        rw [getFieldH_congr (a.untouched i hi2) k]
        exact hmk
      obtain ⟨q, hq, hwq⟩ := b.markSeen i hi3 hi2 k hmk2
      refine ⟨q, hq, ?_⟩
      rw [← walkPath_congr a.refEq q root]
      exact hwq

/-- Overwriting one sentinel field of an already-seen object with a stub for
its own key is a hydration step. -/
theorem hydStep_setStub (n root : Nat) (st : HydSt) (objId : Nat) (k : String)
    (children : List String) (hobj : objId ∈ st.seen)
    (hgf : getFieldH st.heap objId k = some funcMarkerH) :
    HydStep n root st ⟨setFieldH st.heap objId k (.stub children k), st.seen⟩ := by
  refine { seenExt := MapExtends.refl _
           lenEq := setFieldH_length _ _ _ _
           frame := ?_
           refEq := ?_
           dich := ?_
           untouched := ?_
           closure := fun x hx hnx => absurd hx hnx
           markSeen := fun i hi hni => absurd hi hni }
  · intro i k' v hv hm
    by_cases hik : i = objId ∧ k' = k
    · obtain ⟨rfl, rfl⟩ := hik
      rw [hgf] at hv
      injection hv with hv'
      rw [← hv'] at hm
      exact absurd hm (by simp [isFunctionSymbolH, funcMarkerH, FunctionSymbol])
    · show getFieldH (setFieldH st.heap objId k (.stub children k)) i k' = some v
      rw [getFieldH_setFieldH_ne _ _ _ _ (by tauto)]
      exact hv
  · intro i k' j
    by_cases hik : i = objId ∧ k' = k
    · obtain ⟨rfl, rfl⟩ := hik
      constructor
      · intro h
        rw [getFieldH_setFieldH_self _ _ _ _ hgf] at h
        injection h with h'
        exact absurd h' (by simp)
      · intro h
        rw [hgf] at h
        injection h with h'
        exact absurd h' (by simp [funcMarkerH])
    · show getFieldH (setFieldH st.heap objId k (.stub children k)) i k' = _ ↔ _
      rw [getFieldH_setFieldH_ne _ _ _ _ (by tauto)]
  · intro i k' h
    by_cases hik : i = objId ∧ k' = k
    · obtain ⟨rfl, rfl⟩ := hik
      exact Or.inr ⟨children, getFieldH_setFieldH_self _ _ _ _ hgf⟩
    · show getFieldH (setFieldH st.heap objId k (.stub children k)) i k' = _ ∨ _
      rw [getFieldH_setFieldH_ne _ _ _ _ (by tauto)]
      exact Or.inl h
  · intro i hni
    have hine : i ≠ objId := fun he => hni (he ▸ hobj)
    exact get?_setFieldH_ne _ _ _ _ hine

/-! ## Totality and frame lemmas for `hydrateRemote` -/

/-- Totality and the full behaviour of `hydrateRemote`/`hydrateFields`, by
strong induction on the number of heap objects not yet in the seen set (the
recursion only ever descends into an unseen object, which is immediately
marked seen).  Each call is shown to be a `HydStep` — so the seen set is
closed over the edges of newly seen objects and every newly seen object's
sentinel fields become stubs whose paths walk from the root to that object —
and additionally: objects seen before the call are untouched (except, in the
field loop, the object whose fields are being written), the hydrated
object's own sentinel fields become stubs bound to the call's path, and the
field loop leaves every reference successor of its object in the final seen
set.  Each recursive call's path hypothesis — that `children` walks from the
root to the object being hydrated — mirrors the paths carried by
`remoteMethod` stubs. -/
theorem hydrate_total_aux (n root : Nat) :
    ∀ m : Nat,
      (∀ fuel children objId st, HydInv n st → objId < n → objId ∉ st.seen →
        walkPath st.heap root children = some objId →
        n - st.seen.length ≤ m → m ≤ fuel →
        ∃ st', hydrateRemote fuel children objId st = some st' ∧ HydInv n st' ∧
          HydStep n root st st' ∧
          objId ∈ st'.seen ∧
          (∀ i ∈ st.seen, st'.heap.get? i = st.heap.get? i) ∧
          (∀ k, getFieldH st.heap objId k = some funcMarkerH →
            getFieldH st'.heap objId k = some (.stub children k))) ∧
      (∀ fuel children objId keys st, HydInv n st → objId ∈ st.seen →
        walkPath st.heap root children = some objId →
        n - st.seen.length ≤ m → m ≤ fuel →
        ∃ st', hydrateFields fuel children objId keys st = some st' ∧ HydInv n st' ∧
          HydStep n root st st' ∧
          (∀ i ∈ st.seen, i ≠ objId → st'.heap.get? i = st.heap.get? i) ∧
          (∀ k ∈ keys, getFieldH st.heap objId k = some funcMarkerH →
            getFieldH st'.heap objId k = some (.stub children k)) ∧
          (∀ k ∈ keys, ∀ j, getFieldH st.heap objId k = some (.ref j) → j ∈ st'.seen)) := by
  intro m
  induction m using Nat.strong_induction_on with
  | _ m IH =>
    have hP : ∀ fuel children objId st, HydInv n st → objId < n → objId ∉ st.seen →
        walkPath st.heap root children = some objId →
        n - st.seen.length ≤ m → m ≤ fuel →
        ∃ st', hydrateRemote fuel children objId st = some st' ∧ HydInv n st' ∧
          HydStep n root st st' ∧
          objId ∈ st'.seen ∧
          (∀ i ∈ st.seen, st'.heap.get? i = st.heap.get? i) ∧
          (∀ k, getFieldH st.heap objId k = some funcMarkerH →
            getFieldH st'.heap objId k = some (.stub children k)) := by
      intro fuel children objId st hinv hlt hnse hwroot hbound hfuel
      obtain ⟨hnd, hsb, hlen, hrefs⟩ := hinv
      have hseenlt : st.seen.length < n := length_lt_of_not_mem hnd hsb hlt hnse
      have hm1 : 1 ≤ m := by omega
      obtain ⟨m', rfl⟩ : ∃ m', m = m' + 1 := ⟨m - 1, by omega⟩
      obtain ⟨fuel', rfl⟩ : ∃ f', fuel = f' + 1 := ⟨fuel - 1, by omega⟩
      have hltheap : objId < st.heap.length := by omega
      have hget : st.heap.get? objId = some (st.heap.get ⟨objId, hltheap⟩) :=
        List.get?_eq_get hltheap
      have hinv1 : HydInv n ⟨st.heap, objId :: st.seen⟩ := by
        refine ⟨List.nodup_cons.mpr ⟨hnse, hnd⟩, ?_, hlen, hrefs⟩
        intro i hi
        rcases List.mem_cons.mp hi with rfl | hi'
        · exact hlt
        · exact hsb i hi'
      have hb1 : n - (HydSt.seen ⟨st.heap, objId :: st.seen⟩).length ≤ m' := by
        simp only [List.length_cons]
        omega
      obtain ⟨st', heq, hinv', hstep', huns', hall', hsucc'⟩ :=
        (IH m' (by omega)).2 fuel' children objId
          ((st.heap.get ⟨objId, hltheap⟩).map Prod.fst) ⟨st.heap, objId :: st.seen⟩
          hinv1 (List.mem_cons_self _ _) hwroot hb1 (by omega)
      have hobjseen : objId ∈ st'.seen := hstep'.seenExt.mem (List.mem_cons_self _ _)
      have hkeymem : ∀ {k : String} {w : HVal}, getFieldH st.heap objId k = some w →
          k ∈ (st.heap.get ⟨objId, hltheap⟩).map Prod.fst := by
        intro k w hw
        have hlk : List.lookup k (st.heap.get ⟨objId, hltheap⟩) = some w := by
          unfold getFieldH at hw
          rw [hget] at hw
          exact hw
        exact lookup_mem_keys hlk
      have hstep : HydStep n root st st' := by
        refine { seenExt := (MapExtends.cons _ _).trans hstep'.seenExt
                 lenEq := hstep'.lenEq
                 frame := hstep'.frame
                 refEq := hstep'.refEq
                 dich := hstep'.dich
                 untouched := hstep'.untouched
                 closure := ?_
                 markSeen := ?_ }
        · intro x hx hnx k j href
          by_cases hxo : x = objId
          · subst hxo
            have href1 : getFieldH st.heap x k = some (.ref j) := (hstep'.refEq x k j).mp href
            exact hsucc' k (hkeymem href1) j href1
          · have hnx1 : x ∉ (HydSt.seen ⟨st.heap, objId :: st.seen⟩) := by
              intro hx1
              rcases List.mem_cons.mp hx1 with h | h
              · exact hxo h
              · exact hnx h
            exact hstep'.closure x hx hnx1 k j href
        · intro i hi hni k hmk
          by_cases hio : i = objId
          · subst hio
            exact ⟨children, hall' k (hkeymem hmk) hmk, hwroot⟩
          · have hni1 : i ∉ (HydSt.seen ⟨st.heap, objId :: st.seen⟩) := by
              intro hi1
              rcases List.mem_cons.mp hi1 with h | h
              · exact hio h
              · exact hni h
            exact hstep'.markSeen i hi hni1 k hmk
      refine ⟨st', ?_, hinv', hstep, hobjseen, ?_, ?_⟩
      · rw [hydrateRemote.eq_2, hget]
        exact heq
      · intro i hi
        exact huns' i (List.mem_cons_of_mem _ hi) (fun he => hnse (he ▸ hi))
      · intro k hk
        exact hall' k (hkeymem hk) hk
    refine ⟨hP, ?_⟩
    intro fuel children objId keys
    induction keys with
    | nil =>
        intro st hinv hobj hwroot hbound hfuel
        refine ⟨st, hydrateFields.eq_1 _ _ _ _, hinv, HydStep.idStep n root st, ?_, ?_, ?_⟩
        · intro i _ _; rfl
        · intro k hk; simp at hk
        · intro k hk; simp at hk
    | cons k rest ihks =>
        intro st hinv hobj hwroot hbound hfuel
        rcases hgf : getFieldH st.heap objId k with _ | v
        · -- key not present (cannot happen for cached keys, but the code
          -- would just skip it)
          obtain ⟨st', heq, hinv', hstep', huns', hall', hsucc'⟩ :=
            ihks st hinv hobj hwroot hbound hfuel
          refine ⟨st', ?_, hinv', hstep', huns', ?_, ?_⟩
          · rw [hydrateFields.eq_2, hgf]
            exact heq
          · intro k' hk' hmk'
            rcases List.mem_cons.mp hk' with rfl | hk''
            · rw [hgf] at hmk'
              exact absurd hmk' (by simp)
            · exact hall' k' hk'' hmk'
          · intro k' hk' j hrj
            rcases List.mem_cons.mp hk' with rfl | hk''
            · rw [hgf] at hrj
              exact absurd hrj (by simp)
            · exact hsucc' k' hk'' j hrj
        · by_cases hmark : isFunctionSymbolH v = true
          · -- sentinel field: overwrite with a stub for this path and key
            have hvm : v = funcMarkerH := (isFunctionSymbolH_iff v).mp hmark
            subst hvm
            obtain ⟨hnd, hsb, hlen, hrefs⟩ := hinv
            have hinvk : HydInv n ⟨setFieldH st.heap objId k (.stub children k), st.seen⟩ := by
              refine ⟨hnd, hsb, ?_, refsWFH_setFieldH _ _ _ _ hrefs⟩
              rw [setFieldH_length]
              exact hlen
            have hheadstep : HydStep n root st
                ⟨setFieldH st.heap objId k (.stub children k), st.seen⟩ :=
              hydStep_setStub n root st objId k children hobj hgf
            have hwrootk : walkPath
                (HydSt.heap ⟨setFieldH st.heap objId k (.stub children k), st.seen⟩)
                root children = some objId := by
              rw [walkPath_congr hheadstep.refEq children root]
              exact hwroot
            obtain ⟨st', heq, hinv', hstep', huns', hall', hsucc'⟩ :=
              ihks ⟨setFieldH st.heap objId k (.stub children k), st.seen⟩
                hinvk hobj hwrootk hbound hfuel
            have hstub : getFieldH (setFieldH st.heap objId k (.stub children k)) objId k =
                some (.stub children k) := getFieldH_setFieldH_self _ _ _ _ hgf
            have hstubkept : getFieldH st'.heap objId k = some (.stub children k) :=
              hstep'.frame objId k _ hstub (by rfl)
            refine ⟨st', ?_, hinv', hheadstep.comp hstep', ?_, ?_, ?_⟩
            · rw [hydrateFields.eq_2, hgf]
              simp only [hmark, if_true]
              exact heq
            · intro i hi hine
              have h1 : (setFieldH st.heap objId k (.stub children k)).get? i =
                  st.heap.get? i := get?_setFieldH_ne _ _ _ _ hine
              rw [huns' i hi hine, h1]
            · intro k' hk' hmk'
              by_cases hkk : k' = k
              · subst hkk
                exact hstubkept
              · rcases List.mem_cons.mp hk' with rfl | hk''
                · exact absurd rfl hkk
                · have hkeep : getFieldH (setFieldH st.heap objId k (.stub children k))
                      objId k' = some funcMarkerH := by
                    rw [getFieldH_setFieldH_ne _ _ _ _ (Or.inr hkk)]
                    exact hmk'
                  exact hall' k' hk'' hkeep
            · intro k' hk' j hrj
              by_cases hkk : k' = k
              · subst hkk
                rw [hgf] at hrj
                injection hrj with h'
                exact absurd h' (by simp [funcMarkerH])
              · rcases List.mem_cons.mp hk' with rfl | hk''
                · exact absurd rfl hkk
                · have hkeep : getFieldH (setFieldH st.heap objId k (.stub children k))
                      objId k' = some (.ref j) := by
                    rw [getFieldH_setFieldH_ne _ _ _ _ (Or.inr hkk)]
                    exact hrj
                  exact hsucc' k' hk'' j hkeep
          · -- not a sentinel
            have hmark' : isFunctionSymbolH v = false := by
              rcases h : isFunctionSymbolH v with _ | _
              · rfl
              · exact absurd h hmark
            by_cases href : ∃ j, v = .ref j
            · -- an object reference
              obtain ⟨j, rfl⟩ := href
              by_cases hseen : st.seen.contains j
              · -- already hydrated (or being hydrated): skip
                obtain ⟨st', heq, hinv', hstep', huns', hall', hsucc'⟩ :=
                  ihks st hinv hobj hwroot hbound hfuel
                refine ⟨st', ?_, hinv', hstep', huns', ?_, ?_⟩
                · rw [hydrateFields.eq_2, hgf]
                  simp only [hmark', Bool.false_eq_true, if_false, hseen, if_true]
                  exact heq
                · intro k' hk' hmk'
                  rcases List.mem_cons.mp hk' with rfl | hk''
                  · rw [hgf] at hmk'
                    injection hmk' with h'
                    rw [h'] at hmark'
                    exact absurd hmark'
                      (by simp [isFunctionSymbolH, funcMarkerH, FunctionSymbol])
                  · exact hall' k' hk'' hmk'
                · intro k' hk' j' hrj
                  rcases List.mem_cons.mp hk' with rfl | hk''
                  · rw [hgf] at hrj
                    injection hrj with h'
                    injection h' with h''
                    subst h''
                    have hjseen : j ∈ st.seen := List.elem_iff.mp (by simpa using hseen)
                    exact hstep'.seenExt.mem hjseen
                  · exact hsucc' k' hk'' j' hrj
              · -- recurse into the unseen child object
                have hjn : j < n := by
                  obtain ⟨_, _, _, hrefs⟩ := hinv
                  have hok : hvalWF n (.ref j) = true := by
                    unfold getFieldH at hgf
                    rcases hg2 : st.heap.get? objId with _ | fs
                    · rw [hg2] at hgf; simp at hgf
                    · rw [hg2] at hgf
                      have hgf' : List.lookup k fs = some (.ref j) := hgf
                      exact hrefs objId fs hg2 (k, .ref j) (mem_of_lookup hgf')
                  exact hvalWF_ref hok
                have hnsej : j ∉ st.seen := by
                  intro hj
                  exact absurd (List.elem_iff.mpr hj) (by simpa using hseen)
                have hwalk_child : walkPath st.heap root (children ++ [k]) = some j := by
                  simp only [walkPath_snoc, hwroot, hgf]
                obtain ⟨stm, heqP, hinvm, hstepm, hjseenm, hunsm, hallm⟩ :=
                  hP fuel (children ++ [k]) j st hinv hjn hnsej hwalk_child hbound hfuel
                have hobjm : objId ∈ stm.seen := hstepm.seenExt.mem hobj
                have hbm : n - stm.seen.length ≤ m := by
                  have := hstepm.seenExt.length_le
                  omega
                have hwrootm : walkPath stm.heap root children = some objId := by
                  rw [walkPath_congr hstepm.refEq children root]
                  exact hwroot
                obtain ⟨st', heq, hinv', hstep', huns', hall', hsucc'⟩ :=
                  ihks stm hinvm hobjm hwrootm hbm hfuel
                have hobjuntouched : stm.heap.get? objId = st.heap.get? objId :=
                  hunsm objId hobj
                refine ⟨st', ?_, hinv', hstepm.comp hstep', ?_, ?_, ?_⟩
                · rw [hydrateFields.eq_2, hgf]
                  simp only [hmark', Bool.false_eq_true, if_false, hseen, heqP]
                  exact heq
                · intro i hi hine
                  rw [huns' i (hstepm.seenExt.mem hi) hine, hunsm i hi]
                · intro k' hk' hmk'
                  rcases List.mem_cons.mp hk' with rfl | hk''
                  · rw [hgf] at hmk'
                    injection hmk' with h'
                    rw [h'] at hmark'
                    exact absurd hmark'
                      (by simp [isFunctionSymbolH, funcMarkerH, FunctionSymbol])
                  · have hstill : getFieldH stm.heap objId k' = some funcMarkerH := by
                      rw [getFieldH_congr hobjuntouched]
                      exact hmk'
                    exact hall' k' hk'' hstill
                · intro k' hk' j' hrj
                  rcases List.mem_cons.mp hk' with rfl | hk''
                  · rw [hgf] at hrj
                    injection hrj with h'
                    injection h' with h''
                    subst h''
                    exact hstep'.seenExt.mem hjseenm
                  · have hrjm : getFieldH stm.heap objId k' = some (.ref j') :=
                      hstepm.frame _ _ _ hrj (by rfl)
                    exact hsucc' k' hk'' j' hrjm
            · -- any other value: the field is skipped
              obtain ⟨st', heq, hinv', hstep', huns', hall', hsucc'⟩ :=
                ihks st hinv hobj hwroot hbound hfuel
              refine ⟨st', ?_, hinv', hstep', huns', ?_, ?_⟩
              · rw [hydrateFields.eq_2, hgf]
                simp only [hmark', Bool.false_eq_true, if_false]
                rcases v with p | _ | j | ⟨pc, mc⟩
                · exact heq
                · exact heq
                · exact absurd ⟨j, rfl⟩ href
                · exact heq
              · intro k' hk' hmk'
                rcases List.mem_cons.mp hk' with rfl | hk''
                · rw [hgf] at hmk'
                  injection hmk' with h'
                  rw [h'] at hmark'
                  exact absurd hmark'
                    (by simp [isFunctionSymbolH, funcMarkerH, FunctionSymbol])
                · exact hall' k' hk'' hmk'
              · intro k' hk' j hrj
                rcases List.mem_cons.mp hk' with rfl | hk''
                · rw [hgf] at hrj
                  injection hrj with h'
                  exact absurd ⟨j, h'⟩ href
                · exact hsucc' k' hk'' j hrj

/-! ## Claim C10 — hydrateRemote replaces exactly the sentinel fields -/

/-- Claim C10: `hydrateRemote` over a received surface descriptor replaces
exactly those fields whose value is the function sentinel marker with
callable stubs bound to their path, and leaves every other field — nested
object references and plain data values — completely unchanged, so all
non-function data remains readable at the same position.  In detail: the
traversal terminates on every well-formed descriptor, cycles included (fuel
equal to the heap size always suffices); every non-sentinel field anywhere
keeps its value; a sentinel field only ever turns into a stub for its own
key; every sentinel field of the root object becomes a stub bound to the
empty path and its key; and every sentinel field of *every* object of the
descriptor — every object reachable from the root by a path of member
names — becomes a stub whose recorded path walks from the root to that very
object (with aliasing, the first-visit path), which is exactly the path the
stub's Request messages will carry. -/
theorem c10_hydrateRemote (heap : SrcHeap) (root : Nat)
    (hwf : heapWF heap = true) (hroot : root < heap.length) :
    ∃ st', hydrateRemote heap.length [] root ⟨heap, []⟩ = some st' ∧
      st'.heap.length = heap.length ∧
      (∀ i k v, getFieldH heap i k = some v → isFunctionSymbolH v = false →
        getFieldH st'.heap i k = some v) ∧
      (∀ i k, getFieldH heap i k = some funcMarkerH →
        getFieldH st'.heap i k = some funcMarkerH ∨
        ∃ p, getFieldH st'.heap i k = some (.stub p k)) ∧
      (∀ k, getFieldH heap root k = some funcMarkerH →
        getFieldH st'.heap root k = some (.stub [] k)) ∧
      (∀ p i, walkPath heap root p = some i →
        ∀ k, getFieldH heap i k = some funcMarkerH →
          ∃ q, getFieldH st'.heap i k = some (.stub q k) ∧
            walkPath heap root q = some i) := by
  have hinv0 : HydInv heap.length ⟨heap, []⟩ := by
    refine ⟨List.nodup_nil, by simp, rfl, ?_⟩
    intro i fs hg kv hkv
    exact (heapWF_fields hwf hg).2 kv hkv
  obtain ⟨st', heq, hinv', hstep, hrootseen, _, hall⟩ :=
    (hydrate_total_aux heap.length root heap.length).1 heap.length [] root ⟨heap, []⟩
      hinv0 hroot (by simp) rfl (by simp) (le_refl _)
  have hreach : ∀ (p : List String) (i0 i : Nat), walkPath heap i0 p = some i →
      i0 ∈ st'.seen → i ∈ st'.seen := by
    intro p
    induction p with
    | nil =>
        intro i0 i h hseen
        have h' : i0 = i := by
          injection h
        exact h' ▸ hseen
    | cons k rest ih =>
        intro i0 i h hseen
        rcases hv : getFieldH heap i0 k with _ | v
        · simp [walkPath, hv] at h
        · rcases v with p0 | _ | j | ⟨pc, mc⟩
          · simp [walkPath, hv] at h
          · simp [walkPath, hv] at h
          · simp only [walkPath, hv] at h
            have hjref : getFieldH st'.heap i0 k = some (.ref j) :=
              (hstep.refEq i0 k j).mpr hv
            have hj : j ∈ st'.seen := hstep.closure i0 hseen (by simp) k j hjref
            exact ih j i h hj
          · simp [walkPath, hv] at h
  refine ⟨st', heq, hinv'.2.2.1, hstep.frame, hstep.dich, hall, ?_⟩
  intro p i hwalk k hmk
  have hiseen : i ∈ st'.seen := hreach p root i hwalk hrootseen
  exact hstep.markSeen i hiseen (by simp) k hmk

/-- Witness for C10 on a concrete two-object descriptor with sentinel
fields, a nested object, a back reference and plain data. -/
theorem c10_witness :
    heapWF [[("m", HVal.prim (.str FunctionSymbol)), ("child", HVal.ref 1),
             ("d", HVal.prim (.num 1))],
            [("m2", HVal.prim (.str FunctionSymbol)), ("back", HVal.ref 0)]] = true ∧
    ∃ st', hydrateRemote 2 [] 0
        ⟨[[("m", HVal.prim (.str FunctionSymbol)), ("child", HVal.ref 1),
           ("d", HVal.prim (.num 1))],
          [("m2", HVal.prim (.str FunctionSymbol)), ("back", HVal.ref 0)]], []⟩ = some st' ∧
      st'.heap.length = 2 ∧
      (∀ i k v,
        getFieldH [[("m", HVal.prim (.str FunctionSymbol)), ("child", HVal.ref 1),
                    ("d", HVal.prim (.num 1))],
                   [("m2", HVal.prim (.str FunctionSymbol)), ("back", HVal.ref 0)]] i k =
          some v →
        isFunctionSymbolH v = false → getFieldH st'.heap i k = some v) ∧
      (∀ i k,
        getFieldH [[("m", HVal.prim (.str FunctionSymbol)), ("child", HVal.ref 1),
                    ("d", HVal.prim (.num 1))],
                   [("m2", HVal.prim (.str FunctionSymbol)), ("back", HVal.ref 0)]] i k =
          some funcMarkerH →
        getFieldH st'.heap i k = some funcMarkerH ∨
        ∃ p, getFieldH st'.heap i k = some (.stub p k)) ∧
      (∀ k,
        getFieldH [[("m", HVal.prim (.str FunctionSymbol)), ("child", HVal.ref 1),
                    ("d", HVal.prim (.num 1))],
                   [("m2", HVal.prim (.str FunctionSymbol)), ("back", HVal.ref 0)]] 0 k =
          some funcMarkerH →
        getFieldH st'.heap 0 k = some (.stub [] k)) ∧
      (∀ p i,
        walkPath [[("m", HVal.prim (.str FunctionSymbol)), ("child", HVal.ref 1),
                   ("d", HVal.prim (.num 1))],
                  [("m2", HVal.prim (.str FunctionSymbol)), ("back", HVal.ref 0)]] 0 p =
          some i →
        ∀ k,
          getFieldH [[("m", HVal.prim (.str FunctionSymbol)), ("child", HVal.ref 1),
                      ("d", HVal.prim (.num 1))],
                     [("m2", HVal.prim (.str FunctionSymbol)), ("back", HVal.ref 0)]] i k =
            some funcMarkerH →
          ∃ q, getFieldH st'.heap i k = some (.stub q k) ∧
            walkPath [[("m", HVal.prim (.str FunctionSymbol)), ("child", HVal.ref 1),
                       ("d", HVal.prim (.num 1))],
                      [("m2", HVal.prim (.str FunctionSymbol)), ("back", HVal.ref 0)]] 0 q =
              some i) :=
  ⟨by decide,
   c10_hydrateRemote
     [[("m", HVal.prim (.str FunctionSymbol)), ("child", HVal.ref 1),
       ("d", HVal.prim (.num 1))],
      [("m2", HVal.prim (.str FunctionSymbol)), ("back", HVal.ref 0)]] 0
     (by decide) (by decide)⟩

/-! ## Claim C8 — clone terminates on cyclic graphs and deduplicates -/

/-- Claim C8: on every well-formed object graph — cycles and sharing
included — `clone` terminates (fuel equal to the number of heap objects
always suffices, which is the termination argument: the memoisation map
only grows), the memoisation map ends with distinct keys (every reachable
object is cloned exactly once), and an object reachable through two
different fields is cloned once, both output fields holding the same clone
reference rather than duplicated or infinitely recursed copies. -/
theorem c8_clone (heap : SrcHeap) (withFunctions : Bool) (id j : Nat) (k1 k2 : String)
    (fields : ObjFields)
    (hwf : heapWF heap = true)
    (hfields : heap.get? id = some fields)
    (h1 : List.lookup k1 fields = some (.ref j))
    (h2 : List.lookup k2 fields = some (.ref j)) :
    ∃ st' fs' r,
      cloneVal heap withFunctions heap.length ⟨[], []⟩ (.ref id) = some (st', .ref 0) ∧
      st'.out.get? 0 = some fs' ∧
      List.lookup k1 fs' = some (.ref r) ∧
      List.lookup k2 fs' = some (.ref r) ∧
      (st'.map.map Prod.fst).Nodup := by
  have hid : id < heap.length := (List.get?_eq_some.mp hfields).1
  obtain ⟨f', hf⟩ : ∃ f', heap.length = f' + 1 := ⟨heap.length - 1, by omega⟩
  obtain ⟨hnd, hwfs⟩ := heapWF_fields hwf hfields
  have hinv1 : CloneInv heap ⟨[(id, 0)], [[]]⟩ := by
    constructor
    · simp
    · intro x hx
      simp only [List.map_cons, List.map_nil, List.mem_singleton] at hx
      subst hx
      exact hid
  have hfuel1 : heap.length - (CloneSt.map ⟨[(id, 0)], [[]]⟩).length ≤ f' := by
    simp only [List.length_cons, List.length_nil]
    omega
  obtain ⟨st2, fs2, r1, heqD, hlk1, hmapj1, hinv2, hext2, hout2⟩ :=
    cloneFields_lookup_ref heap withFunctions hwf fields f' ⟨[(id, 0)], [[]]⟩ k1 j
      hinv1 hwfs hfuel1 h1
  obtain ⟨st2', fs2', r2, heqD', hlk2, hmapj2, _, _, _⟩ :=
    cloneFields_lookup_ref heap withFunctions hwf fields f' ⟨[(id, 0)], [[]]⟩ k2 j
      hinv1 hwfs hfuel1 h2
  have hpair : st2' = st2 ∧ fs2' = fs2 := by
    have hsame := heqD.symm.trans heqD'
    injection hsame with h'
    injection h' with ha hb
    exact ⟨ha.symm, hb.symm⟩
  obtain ⟨hst, hfs⟩ := hpair
  rw [hst] at hmapj2
  rw [hfs] at hlk2
  have hr : r2 = r1 := by
    rw [hmapj1] at hmapj2
    injection hmapj2 with h'
    exact h'.symm
  rw [hr] at hlk2
  have hlen2 : 1 ≤ st2.out.length := by
    have h' : (CloneSt.out ⟨[(id, 0)], [[]]⟩).length ≤ st2.out.length := hout2
    simpa using h'
  refine ⟨{ st2 with out := st2.out.set 0 fs2 }, fs2, r1, ?_, ?_, hlk1, hlk2, hinv2.1⟩
  · rw [hf, cloneVal_ref_new heap withFunctions f' ⟨[], []⟩ id fields rfl hfields]
    have hzero : (CloneSt.out ⟨([] : List (Nat × Nat)), ([] : SrcHeap)⟩).length = 0 := rfl
    rw [show (⟨(id, (CloneSt.out ⟨[], []⟩).length) :: CloneSt.map ⟨[], []⟩,
        CloneSt.out ⟨[], []⟩ ++ [[]]⟩ : CloneSt) = ⟨[(id, 0)], [[]]⟩ from rfl, heqD]
    rfl
  · have h0 : 0 < st2.out.length := hlen2
    exact List.get?_set_eq_of_lt _ h0

/-- Witness for C8 on a concrete cyclic heap: one object whose `self` and
`me` fields both reference the object itself. -/
theorem c8_witness :
    heapWF [[("self", HVal.ref 0), ("me", HVal.ref 0), ("x", HVal.prim (.num 5))]] = true ∧
    ∃ st' fs' r,
      cloneVal [[("self", HVal.ref 0), ("me", HVal.ref 0), ("x", HVal.prim (.num 5))]]
          true 1 ⟨[], []⟩ (.ref 0) = some (st', .ref 0) ∧
      st'.out.get? 0 = some fs' ∧
      List.lookup "self" fs' = some (.ref r) ∧
      List.lookup "me" fs' = some (.ref r) ∧
      (st'.map.map Prod.fst).Nodup :=
  ⟨by decide,
   c8_clone [[("self", HVal.ref 0), ("me", HVal.ref 0), ("x", HVal.prim (.num 5))]]
     true 0 0 "self" "me" [("self", HVal.ref 0), ("me", HVal.ref 0), ("x", HVal.prim (.num 5))]
     (by decide) (by decide) (by decide) (by decide)⟩

/-! ## Claim C1 — what `sendInitiate` returns -/

/-- Claim C1, counterexample.  The claim states that a completed capability
exchange returns the pair `{host, remote}`.  On a completed exchange (peer
answered Resolve, no local construction error) `sendInitiate` returns the
stored remote object itself — here an object with a single `increment`
stub field — which is not an object pairing the host with the remote. -/
theorem c1_counterexample :
    sendInitiateResult .resolved none (.obj [("increment", .prim (.str FunctionSymbol))]) =
      .ok (.obj [("increment", .prim (.str FunctionSymbol))]) ∧
    SVal.obj [("increment", .prim (.str FunctionSymbol))] ≠
      .obj [("host", .obj []),
            ("remote", .obj [("increment", .prim (.str FunctionSymbol))])] :=
  ⟨rfl, by decide⟩

/-- Claim C1 (amended): a completed capability exchange returns the remote
handle `this.remote` itself (not a `{host, remote}` pair); if the peer
answered Reject, the call throws the deserialized peer error; if local
construction of the remote recorded an `initiateError`, the call throws that
error. -/
theorem c1_amended (answer : InitiateAnswer) (initiateError : Option JSVal) (remote : SVal) :
    (sendInitiateResult answer initiateError remote = .ok remote ↔
      answer = .resolved ∧ initiateError = none) ∧
    (∀ e, answer = .rejected e →
      sendInitiateResult answer initiateError remote = .error (deserializeError e)) ∧
    (∀ err, answer = .resolved → initiateError = some err →
      sendInitiateResult answer initiateError remote = .error err) := by
  rcases answer with _ | e <;> rcases initiateError with _ | err <;>
    simp [sendInitiateResult]

/-- Witness for C1's amended theorem at a concrete rejected exchange. -/
theorem c1_witness :
    sendInitiateResult (.rejected (.prim (.str "bad"))) none (.prim .null) =
      .error (.plain (.prim (.str "bad"))) :=
  (c1_amended (.rejected (.prim (.str "bad"))) none (.prim .null)).2.1 _ rfl

/-! ## Claim C2 — registration versus send order -/

/-- Claim C2, counterexample.  The claim states that the pending entry is
registered before the message is handed to send.  In `sendRequest` the
source posts the message first and registers the pending entry after: in the
effect trace of a concrete `sendInitiate` origination, the post is at index
0 and the registration at index 1, so no registration precedes the post. -/
theorem c2_counterexample :
    (sendInitiateSend (.prim .undef) ⟨[], [], 0⟩).2 =
      [.post (.initiate 0 (.prim .undef)), .registerReq 0] ∧
    ¬ registeredBeforeSent (sendInitiateSend (.prim .undef) ⟨[], [], 0⟩).2 0 := by
  refine ⟨rfl, fun h => ?_⟩
  have := h 0 1 (.initiate 0 (.prim .undef)) rfl rfl rfl
  omega

/-- Claim C2 (amended): for each of the three correlated-request
originations (`Initiate` via `sendInitiate`, `Request` via `remoteMethod`,
`RequestNextItem` via the stream consumer's `next`), the effect trace is
exactly the post of the message followed immediately — synchronously, in the
same step — by the registration of its pending entry, which is present in
the resulting request table. -/
theorem c2_amended :
    (∀ (host : SVal) (st : MHState),
      (sendInitiateSend host st).2 =
        [.post (.initiate st.lastReqId (cloneS true host)), .registerReq st.lastReqId] ∧
      st.lastReqId ∈ (sendInitiateSend host st).1.requests) ∧
    (∀ (children : List String) (method : String) (args : List SVal) (st : MHState),
      (remoteMethodSend children method args st).2 =
        [.post (.request st.lastReqId children method args), .registerReq st.lastReqId] ∧
      st.lastReqId ∈ (remoteMethodSend children method args st).1.requests) ∧
    (∀ (reqId : Nat) (st : MHState),
      (requestNextItemSend reqId st).2 =
        [.post (.requestNextItem reqId), .registerReq reqId] ∧
      reqId ∈ (requestNextItemSend reqId st).1.requests) := by
  refine ⟨fun host st => ⟨rfl, ?_⟩, fun c m a st => ⟨rfl, ?_⟩, fun reqId st => ⟨rfl, ?_⟩⟩ <;>
    simp [sendInitiateSend, remoteMethodSend, requestNextItemSend, sendRequest, newReqId,
      Msg.reqId]

/-! ## Claim C3 — RequestNextItem with no active stream -/

/-- Claim C3, counterexample.  The claim states that a `RequestNextItem`
whose reqId has no Active Stream entry is treated as an already-cancelled
stream and no Reject is sent.  On a state with an empty stream registry the
handler throws `Error("No async iterators found …")` internally and its
catch block posts a Reject for that reqId. -/
theorem c3_counterexample :
    List.lookup 5 (MHState.asyncIterators ⟨[], [], 0⟩) = none ∧
    postsRejectFor (handleRequestNextItem ⟨[], [], 0⟩ 5 (.ok false (.prim .undef))).2 5 = true := by
  decide

/-- Claim C3 (amended): on a `RequestNextItem` whose reqId has no Active
Stream entry, the producer synthesizes `Error("No async iterators found for
request N")`, serializes it and posts it as a Reject for that reqId, leaving
the endpoint state unchanged. -/
theorem c3_amended (st : MHState) (reqId : Nat) (next : NextOutcome)
    (h : List.lookup reqId st.asyncIterators = none) :
    handleRequestNextItem st reqId next =
      (st, [.post (.reject reqId (serializeError (.errV (noIterError reqId))))]) := by
  rcases st with ⟨rs, its, last⟩
  simp only [handleRequestNextItem] at h ⊢
  rw [h]
  simp [eraseIter_eq_self h]

/-- Witness for C3's amended theorem at a concrete state and reqId, with
the posted serialized error evaluated. -/
theorem c3_witness :
    handleRequestNextItem ⟨[], [], 2⟩ 9 (.ok true (.prim .null)) =
      (⟨[], [], 2⟩,
       [.post (.reject 9 (.obj [(keyName, .prim (.str defaultErrorName)),
          (keyType, .prim (.num 3)),
          (keyMessage, .prim (.str "No async iterators found for request 9")),
          (keyStack, .prim (.str ""))]))]) :=
  (c3_amended ⟨[], [], 2⟩ 9 (.ok true (.prim .null)) (by decide)).trans (by decide)

/-! ## Claim C4 — the three outcomes of an inbound Request -/

/-- Claim C4: for every inbound Request, after the host invocation, exactly
one reply is posted: a plain result is resolved with its value and the state
is unchanged; a result exposing the async-iteration capability registers an
Active Stream under the reqId and a Resolve with no value is posted; a
thrown/rejected invocation posts a Reject carrying the serialized error. -/
theorem c4_handleRequest (st : MHState) (reqId : Nat)
    (invocation : Except JSVal InvocationResult) :
    (handleRequest st reqId invocation).2.length = 1 ∧
    (∀ v, invocation = .ok (.plain v) →
      handleRequest st reqId invocation = (st, [.post (.resolve reqId (some v))])) ∧
    (∀ iter, invocation = .ok (.asyncIterable iter) →
      handleRequest st reqId invocation =
        ({ st with asyncIterators := (reqId, iter) :: st.asyncIterators },
         [.post (.resolve reqId none)])) ∧
    (∀ e, invocation = .error e →
      handleRequest st reqId invocation = (st, [.post (.reject reqId (serializeError e))])) := by
  rcases invocation with e | r
  · simp [handleRequest]
  · rcases r with v | iter <;> simp [handleRequest]

/-- Witness for C4 at a concrete plain invocation result. -/
theorem c4_witness :
    handleRequest ⟨[], [], 0⟩ 7 (.ok (.plain (.prim (.num 5)))) =
      (⟨[], [], 0⟩, [.post (.resolve 7 (some (.prim (.num 5))))]) :=
  (c4_handleRequest ⟨[], [], 0⟩ 7 (.ok (.plain (.prim (.num 5))))).2.1 _ rfl

/-! ## Claim C5 — error codec round trip -/

/-- Claim C5, counterexample.  The claim states that the round trip carries
every enumerable non-function field of the error.  An error carrying an
enumerable field named `_type` with value 7 comes back with that field
overwritten by the codec's marker value 3: the field is not carried. -/
theorem c5_counterexample :
    errFieldLookup (deserializeError (serializeError
        (.errV ⟨"m", "s", defaultErrorName, [(keyType, .prim (.num 7))]⟩))) keyType =
      some (.prim (.num 3)) ∧
    (some (SVal.prim (.num 3)) : Option SVal) ≠ some (.prim (.num 7)) := by
  decide

/-- Claim C5 (amended): deserializing the serialization of an Error yields
an error-like value whose `message` equals the original's `message` and
whose `stack` equals the original's `stack`, and which carries every
enumerable non-function field of the original whose name is not the
reserved marker key `_type` (which the codec overwrites with the Reject
marker) and whose value does not serialize to the function sentinel; the
carried value is the field's structural clone (the clone of a function-free
value being the value itself).  The well-formedness hypotheses tie a
shadowing enumerable `message`/`stack` own field, when present, to the
native slot it is in JavaScript. -/
theorem c5_amended (e : ErrVal)
    (hm : List.lookup keyMessage e.fields = none ∨
      List.lookup keyMessage e.fields = some (.prim (.str e.message)))
    (hs : List.lookup keyStack e.fields = none ∨
      List.lookup keyStack e.fields = some (.prim (.str e.stack)))
    (k : String) (v : SVal)
    (hk : List.lookup k e.fields = some v)
    (hkt : k ≠ keyType)
    (hv : isFunctionSymbol (cloneS false v) = false) :
    errMessage (deserializeError (serializeError (.errV e))) = some e.message ∧
    errStack (deserializeError (serializeError (.errV e))) = some e.stack ∧
    errFieldLookup (deserializeError (serializeError (.errV e))) k =
      some (cloneS false v) := by
  have hts : keyType ≠ keyStack := by decide
  have htm : keyType ≠ keyMessage := by decide
  have hms : keyMessage ≠ keyStack := by decide
  set C0 : List (String × SVal) := cloneSFields false e.fields with hC0
  set C1 : List (String × SVal) :=
    if (List.lookup keyName C0).isSome then C0 else C0 ++ [(keyName, .prim (.str e.name))]
    with hC1
  set FS : List (String × SVal) :=
    setField (setField (setField C1 keyType (.prim (.num MessageTypeReject)))
      keyMessage (.prim (.str e.message))) keyStack (.prim (.str e.stack)) with hFS
  have hser : serializeError (.errV e) = .obj FS := rfl
  have htype : List.lookup keyType FS = some (.prim (.num MessageTypeReject)) := by
    rw [hFS, lookup_setField_ne _ _ hts, lookup_setField_ne _ _ htm, lookup_setField_self]
  have htag : isRejectTagged (.obj FS) = true := by
    simp [isRejectTagged, htype]
  have hmsg : List.lookup keyMessage FS = some (.prim (.str e.message)) := by
    rw [hFS, lookup_setField_ne _ _ hms, lookup_setField_self]
  have hstk : List.lookup keyStack FS = some (.prim (.str e.stack)) := by
    rw [hFS, lookup_setField_self]
  have hdes : deserializeError (.obj FS) =
      .errV ⟨getStrD FS keyMessage "", getStrD FS keyStack "",
             getStrD FS keyName defaultErrorName, FS⟩ := by
    simp [deserializeError, htag]
  rw [hser, hdes]
  refine ⟨?_, ?_, ?_⟩
  · simp [errMessage, getStrD, hmsg]
  · simp [errStack, getStrD, hstk]
  · show List.lookup k FS = some (cloneS false v)
    by_cases hkm : k = keyMessage
    · subst hkm
      rcases hm with hnone | hsome
      · rw [hnone] at hk; exact absurd hk (by simp)
      · rw [hsome] at hk
        have hv' : v = .prim (.str e.message) := by
          injection hk with h'; exact h'.symm
        rw [hmsg, hv']
        rfl
    · by_cases hks : k = keyStack
      · subst hks
        rcases hs with hnone | hsome
        · rw [hnone] at hk; exact absurd hk (by simp)
        · rw [hsome] at hk
          have hv' : v = .prim (.str e.stack) := by
            injection hk with h'; exact h'.symm
          rw [hstk, hv']
          rfl
      · have hC0k : List.lookup k C0 = some (cloneS false v) := lookup_cloneSFields hk hv
        have hC1k : List.lookup k C1 = some (cloneS false v) := by
          rw [hC1]
          split
          · exact hC0k
          · exact lookup_append_some hC0k
        rw [hFS, lookup_setField_ne _ _ hks, lookup_setField_ne _ _ hkm,
          lookup_setField_ne _ _ hkt, hC1k]

/-- Witness for C5's amended theorem: the spec's `message = "boom"`,
`code = 42` scenario — the deserialized error exposes both. -/
theorem c5_witness :
    errMessage (deserializeError (serializeError
        (.errV ⟨"boom", "st0", defaultErrorName, [("code", .prim (.num 42))]⟩))) =
      some "boom" ∧
    errStack (deserializeError (serializeError
        (.errV ⟨"boom", "st0", defaultErrorName, [("code", .prim (.num 42))]⟩))) =
      some "st0" ∧
    errFieldLookup (deserializeError (serializeError
        (.errV ⟨"boom", "st0", defaultErrorName, [("code", .prim (.num 42))]⟩))) "code" =
      some (.prim (.num 42)) :=
  c5_amended ⟨"boom", "st0", defaultErrorName, [("code", .prim (.num 42))]⟩
    (by decide) (by decide) "code" (.prim (.num 42)) (by decide) (by decide) (by decide)

/-! ## Claim C6 — Resolve/Reject correlation and idempotent late messages -/

/-- Claim C6: a Resolve/Reject whose reqId has no pending entry leaves the
endpoint state unchanged and invokes no completion handler; when an entry
exists, processing removes it (so it is consumed by at most one
Resolve/Reject: reprocessing the same message afterwards is a no-op) and
invokes exactly the matching completion — resolve with the result, or
reject with the deserialized error. -/
theorem c6_handleResponse (st : MHState) (reqId : Nat) (r : Response) :
    (reqId ∉ st.requests → handleResponse st reqId r = (st, [])) ∧
    (reqId ∈ st.requests →
      (handleResponse st reqId r).1.requests = eraseReq st.requests reqId ∧
      reqId ∉ (handleResponse st reqId r).1.requests ∧
      handleResponse (handleResponse st reqId r).1 reqId r =
        ((handleResponse st reqId r).1, []) ∧
      (∀ v, r = .resolve v → (handleResponse st reqId r).2 = [.resolveReq reqId v]) ∧
      (∀ e, r = .reject e → (handleResponse st reqId r).2 = [.rejectReq reqId (deserializeError e)])) := by
  constructor
  · intro h
    simp [handleResponse, h]
  · intro h
    have hreq : (handleResponse st reqId r).1.requests = eraseReq st.requests reqId := by
      rcases r with v | e <;> simp [handleResponse, h]
    have hcon : reqId ∉ (handleResponse st reqId r).1.requests := by
      rw [hreq]; exact not_mem_eraseReq_self _ _
    refine ⟨hreq, hcon, ?_, ?_, ?_⟩
    · generalize hst : (handleResponse st reqId r).1 = st' at hcon ⊢
      simp [handleResponse, hcon]
    · rintro v rfl; simp [handleResponse, h]
    · rintro e rfl; simp [handleResponse, h]

/-- Witness for C6 at a concrete pending entry and Resolve message. -/
theorem c6_witness :
    (handleResponse ⟨[3], [], 0⟩ 3 (.resolve (some (.prim (.num 1))))).2 =
      [.resolveReq 3 (some (.prim (.num 1)))] :=
  (((c6_handleResponse ⟨[3], [], 0⟩ 3 (.resolve (some (.prim (.num 1))))).2
    (by decide)).2.2.2.1) _ rfl

/-! ## Claim C7 — CancelIterator: hook invocation and idempotence -/

/-- Claim C7: on CancelIterator, if an Active Stream is registered for the
reqId, the entry is removed and the early-termination hook `iter.return?.()`
is invoked — exactly once, and only when the iterator defines `return`;
afterwards no entry remains, so processing the same CancelIterator again
changes nothing, and a CancelIterator with no registered stream is a no-op. -/
theorem c7_handleCancelIterator (st : MHState) (reqId : Nat) :
    (List.lookup reqId st.asyncIterators = none →
      handleCancelIterator st reqId = (st, [])) ∧
    (∀ iter, List.lookup reqId st.asyncIterators = some iter →
      handleCancelIterator st reqId =
        ({ st with asyncIterators := eraseIter st.asyncIterators reqId },
         if iter.hasReturn then [.invokeReturn reqId] else []) ∧
      List.lookup reqId (handleCancelIterator st reqId).1.asyncIterators = none ∧
      handleCancelIterator (handleCancelIterator st reqId).1 reqId =
        ((handleCancelIterator st reqId).1, [])) := by
  constructor
  · intro h
    simp [handleCancelIterator, h]
  · intro iter h
    have h1 : handleCancelIterator st reqId =
        ({ st with asyncIterators := eraseIter st.asyncIterators reqId },
         if iter.hasReturn then [.invokeReturn reqId] else []) := by
      simp [handleCancelIterator, h]
    have h2 : List.lookup reqId (handleCancelIterator st reqId).1.asyncIterators = none := by
      rw [h1]; exact lookup_eraseIter_self _ _
    refine ⟨h1, h2, ?_⟩
    generalize hst : (handleCancelIterator st reqId).1 = st' at h2 ⊢
    simp [handleCancelIterator, h2]

/-- Witness for C7 at a concrete registered stream whose iterator defines
`return`. -/
theorem c7_witness :
    handleCancelIterator ⟨[], [(4, ⟨true⟩)], 0⟩ 4 = (⟨[], [], 0⟩, [.invokeReturn 4]) :=
  (((c7_handleCancelIterator ⟨[], [(4, ⟨true⟩)], 0⟩ 4).2 ⟨true⟩ (by decide)).1).trans (by decide)

/-! ## Claim C9 — non-Error thrown values -/

/-- Claim C9, counterexample.  The claim states that a non-Error thrown
value is returned unchanged by `deserializeError`.  A plain object that
happens to carry the reject marker field `_type = 3` passes `serializeError`
unchanged but is reconstructed by `deserializeError` into an Error wrapper,
not returned as the same structural value. -/
theorem c9_counterexample :
    deserializeError (serializeError (.plain (.obj [(keyType, .prim (.num 3))]))) =
      .errV ⟨"", "", defaultErrorName, [(keyType, .prim (.num 3))]⟩ ∧
    JSVal.errV ⟨"", "", defaultErrorName, [(keyType, .prim (.num 3))]⟩ ≠
      .plain (.obj [(keyType, .prim (.num 3))]) := by
  decide

/-- Claim C9 (amended): a non-Error thrown value is returned unchanged by
`serializeError` (no marker is added), and — provided it is not an object
already carrying the reject marker `_type = 3` — `deserializeError` returns
it unchanged, so the remote caller's pending call is rejected with that same
structural value rather than an Error wrapper. -/
theorem c9_amended (v : SVal) (h : isRejectTagged v = false) :
    serializeError (.plain v) = v ∧
    deserializeError v = .plain v ∧
    (∀ (st : MHState) (reqId : Nat), reqId ∈ st.requests →
      (handleResponse st reqId (.reject v)).2 = [.rejectReq reqId (.plain v)]) := by
  have hdes : deserializeError v = .plain v := by
    simp [deserializeError, h]
  refine ⟨rfl, hdes, fun st reqId hc => ?_⟩
  simp [handleResponse, hc, hdes]

/-- Witness for C9's amended theorem at a concrete thrown number. -/
theorem c9_witness : deserializeError (.prim (.num 7)) = .plain (.prim (.num 7)) :=
  (c9_amended (.prim (.num 7)) (by decide)).2.1

end WorkerAsync
